import Mathlib

/-!
Verification of the mini-lsm storage engine (`src/mini-lsm-starter`).

Keys and values are byte strings; we model bytes as `Nat` and byte strings as
`List Nat`.  Comparison of keys is lexicographic on raw bytes, exactly as Rust
compares `&[u8]` slices (a strict prefix is smaller).
-/

namespace MiniLsm

/-- A byte string (key or value).  Rust: `&[u8]` / `Vec<u8>` / `Bytes`. -/
abbrev Bytes := List Nat

/-- One key-value entry. -/
abbrev Entry := Bytes × Bytes

/-- Strict lexicographic order on byte strings, as Rust's `Ord` on `&[u8]`:
compare element-wise, a strict prefix is smaller. -/
def keyLt : Bytes → Bytes → Bool
  | [], [] => false
  | [], _ :: _ => true
  | _ :: _, [] => false
  | a :: as, b :: bs => a < b || (a == b && keyLt as bs)

/-- Non-strict lexicographic order: `a ≤ b` iff `¬ b < a`. -/
def keyLe (a b : Bytes) : Bool := !(keyLt b a)

theorem keyLt_irrefl (a : Bytes) : keyLt a a = false := by
  induction a with
  | nil => rfl
  | cons x xs ih => simp [keyLt, ih]

theorem keyLt_asymm {a b : Bytes} (h : keyLt a b = true) : keyLt b a = false := by
  induction a generalizing b with
  | nil =>
    cases b with
    | nil => simp [keyLt] at h
    | cons y ys => simp [keyLt]
  | cons x xs ih =>
    cases b with
    | nil => simp [keyLt] at h
    | cons y ys =>
      simp only [keyLt, Bool.or_eq_true, Bool.and_eq_true, decide_eq_true_eq,
        beq_iff_eq, Bool.or_eq_false_iff, Bool.and_eq_false_iff,
        decide_eq_false_iff_not, beq_eq_false_iff_ne, ne_eq] at h ⊢
      rcases h with hlt | ⟨heq, hrec⟩
      · exact ⟨Nat.not_lt.mpr (Nat.le_of_lt hlt), Or.inl (by omega)⟩
      · subst heq
        exact ⟨Nat.lt_irrefl x, Or.inr (by simpa using ih hrec)⟩

theorem keyLt_trans {a b c : Bytes} (hab : keyLt a b = true) (hbc : keyLt b c = true) :
    keyLt a c = true := by
  induction a generalizing b c with
  | nil =>
    cases c with
    | nil =>
      cases b with
      | nil => exact hab
      | cons y ys => simp [keyLt] at hbc
    | cons z zs => simp [keyLt]
  | cons x xs ih =>
    cases b with
    | nil => simp [keyLt] at hab
    | cons y ys =>
      cases c with
      | nil => simp [keyLt] at hbc
      | cons z zs =>
        simp only [keyLt, Bool.or_eq_true, Bool.and_eq_true, decide_eq_true_eq,
          beq_iff_eq] at hab hbc ⊢
        rcases hab with hlt | ⟨heq, hrec⟩
        · rcases hbc with hlt' | ⟨heq', _⟩
          · exact Or.inl (Nat.lt_trans hlt hlt')
          · subst heq'; exact Or.inl hlt
        · subst heq
          rcases hbc with hlt' | ⟨heq', hrec'⟩
          · exact Or.inl hlt'
          · subst heq'; exact Or.inr ⟨rfl, ih hrec hrec'⟩

theorem keyLt_total (a b : Bytes) (hab : keyLt a b = false) (hba : keyLt b a = false) :
    a = b := by
  induction a generalizing b with
  | nil =>
    cases b with
    | nil => rfl
    | cons y ys => simp [keyLt] at hab
  | cons x xs ih =>
    cases b with
    | nil => simp [keyLt] at hba
    | cons y ys =>
      simp only [keyLt, Bool.or_eq_false_iff, Bool.and_eq_false_iff,
        decide_eq_false_iff_not, beq_iff_eq, beq_eq_false_iff_ne, ne_eq] at hab hba
      obtain ⟨hxy, hab'⟩ := hab
      obtain ⟨hyx, hba'⟩ := hba
      have hexy : x = y := by omega
      subst hexy
      rcases hab' with h | hab'' <;> rcases hba' with h' | hba''
      · omega
      · omega
      · omega
      · exact congrArg (x :: ·) (ih _ hab'' hba'')

theorem keyLe_refl (a : Bytes) : keyLe a a = true := by
  simp [keyLe, keyLt_irrefl]

theorem keyLt_of_keyLe_of_ne {a b : Bytes} (h : keyLe a b = true) (hne : a ≠ b) :
    keyLt a b = true := by
  simp only [keyLe, Bool.not_eq_true'] at h
  cases hlt : keyLt a b with
  | true => rfl
  | false => exact absurd (keyLt_total a b hlt h) hne

end MiniLsm

namespace MiniLsm

/-! ## Byte-level helpers (big-endian integers, as `bytes::BufMut`/`Buf`) -/

/-- Rust `put_u16` big-endian: the two bytes of `n` truncated to `u16`. -/
def putU16 (n : Nat) : List Nat := [n / 256 % 256, n % 256]

/-- Rust `put_u32` big-endian: the four bytes of `n` truncated to `u32`. -/
def putU32 (n : Nat) : List Nat :=
  [n / 16777216 % 256, n / 65536 % 256, n / 256 % 256, n % 256]

/-- Rust `get_u16` big-endian at byte offset `off` of `l` (out-of-range bytes read 0;
the Rust code only reads in range). -/
def getU16 (l : List Nat) (off : Nat) : Nat := 256 * l.getD off 0 + l.getD (off + 1) 0

/-- The sub-list `l[a..b]` (Rust slice `&l[a..b]`). -/
def slice (l : List Nat) (a b : Nat) : List Nat := (l.take b).drop a

/-! ## Block builder (`src/mini-lsm-starter/src/block/builder.rs`) -/

def KEY_PREFIX_LEN_SIZE : Nat := 2

def REST_KEY_LEN_SIZE : Nat := 2

def VALUE_LEN_SIZE : Nat := 2

def OFFSET_SIZE : Nat := 2

def EXTRA_SIZE : Nat := 2

/-- Rust `longest_common_prefix_len`: `a.iter().zip(b).take_while(|(x, y)| x == y).count()`. -/
def longestCommonPrefixLen (a b : Bytes) : Nat :=
  ((a.zip b).takeWhile (fun p => p.1 == p.2)).length

/-- Rust `BlockBuilder` state. -/
structure BlockBuilder where
  offsets : List Nat
  data : List Nat
  blockSize : Nat
  firstKey : Bytes
  deriving Repr, DecidableEq

/-- Rust `BlockBuilder::new`. -/
def BlockBuilder.new (blockSize : Nat) : BlockBuilder :=
  { offsets := [], data := [], blockSize := blockSize, firstKey := [] }

/-- Rust `BlockBuilder::add`.  Returns the Rust boolean result together with the
updated builder (Rust mutates `self`). -/
def BlockBuilder.add (b : BlockBuilder) (key value : Bytes) : Bool × BlockBuilder :=
  if b.data.isEmpty then
    (true,
      { b with
        firstKey := key
        offsets := b.offsets ++ [0]
        data := b.data ++ putU16 0 ++ putU16 key.length ++ key ++
          putU16 value.length ++ value })
  else
    let currentSize := b.data.length + 2 * b.offsets.length + EXTRA_SIZE
    let prefixLen := longestCommonPrefixLen b.firstKey key
    let restKeyLen := key.length - prefixLen
    let addSize := KEY_PREFIX_LEN_SIZE + REST_KEY_LEN_SIZE + restKeyLen +
      VALUE_LEN_SIZE + value.length + OFFSET_SIZE
    if currentSize + addSize > b.blockSize then
      (false, b)
    else
      (true,
        { b with
          offsets := b.offsets ++ [b.data.length % 65536]
          data := b.data ++ putU16 prefixLen ++ putU16 restKeyLen ++
            key.drop prefixLen ++ putU16 value.length ++ value })

/-- Rust `BlockBuilder::is_empty`. -/
def BlockBuilder.isEmpty (b : BlockBuilder) : Bool := b.data.isEmpty

/-! ## Block (`src/mini-lsm-starter/src/block.rs`) -/

def KEY_LEN_SIZE : Nat := 2

/-- A `Block`: raw entry data plus the entry-offset array. -/
structure Block where
  data : List Nat
  offsets : List Nat
  deriving Repr, DecidableEq

/-- Rust `BlockBuilder::build`. -/
def BlockBuilder.build (b : BlockBuilder) : Block :=
  { data := b.data, offsets := b.offsets }

/-- Rust `Block::encode`: data, then each offset as `u16`, then the count as `u16`. -/
def Block.encode (b : Block) : List Nat :=
  b.data ++ b.offsets.flatMap putU16 ++ putU16 b.offsets.length

/-- Rust `chunks(2).map(get_u16)`: read consecutive big-endian `u16`s. -/
def u16Chunks : List Nat → List Nat
  | a :: b :: rest => (256 * a + b) :: u16Chunks rest
  | _ => []

/-- Rust `Block::decode`. -/
def Block.decode (d : List Nat) : Block :=
  let offsetLen := getU16 d (d.length - EXTRA_SIZE)
  let offsetsStart := d.length - EXTRA_SIZE - offsetLen * 2
  let offsetRaw := slice d offsetsStart (d.length - EXTRA_SIZE)
  { data := d.take offsetsStart, offsets := u16Chunks offsetRaw }

/-! ## Block iterator (`src/mini-lsm-starter/src/block/iterator.rs`) -/

/-- Rust `BlockIterator` state (an empty `key` means the iterator is invalid). -/
structure BlockIterator where
  block : Block
  key : Bytes
  valueRange : Nat × Nat
  idx : Nat
  firstKey : Bytes
  deriving Repr, DecidableEq

/-- Rust `BlockIterator::new`. -/
def BlockIterator.new (block : Block) : BlockIterator :=
  { block := block, key := [], valueRange := (0, 0), idx := 0, firstKey := [] }

/-- Rust `BlockIterator::is_valid`. -/
def BlockIterator.isValid (it : BlockIterator) : Bool := !it.key.isEmpty

/-- Rust `BlockIterator::value`. -/
def BlockIterator.value (it : BlockIterator) : Bytes :=
  slice it.block.data it.valueRange.1 it.valueRange.2

/-- Rust `BlockIterator::seek_to_first`.  Reads, at the first entry's offset, a
`u16` key length, then that many key bytes, then a `u16` value length. -/
def BlockIterator.seekToFirst (it : BlockIterator) : BlockIterator :=
  let offset := it.block.offsets.getD 0 0
  let keyLen := getU16 it.block.data offset
  let keyBegin := offset + KEY_LEN_SIZE
  let keyEnd := keyBegin + keyLen
  let key := slice it.block.data keyBegin keyEnd
  let valLen := getU16 it.block.data keyEnd
  let valBegin := keyEnd + KEY_LEN_SIZE
  { it with
    idx := 0
    key := key
    firstKey := key
    valueRange := (valBegin, valBegin + valLen) }

/-- Rust `BlockIterator::next`. -/
def BlockIterator.next (it : BlockIterator) : BlockIterator :=
  if it.idx + 1 ≥ it.block.offsets.length then
    { it with key := [] }
  else
    let idx := it.idx + 1
    let offset := it.block.offsets.getD idx 0
    let keyLen := getU16 it.block.data offset
    let keyBegin := offset + KEY_LEN_SIZE
    let keyEnd := keyBegin + keyLen
    let key := slice it.block.data keyBegin keyEnd
    let valLen := getU16 it.block.data keyEnd
    let valBegin := keyEnd + KEY_LEN_SIZE
    { it with
      idx := idx
      key := key
      valueRange := (valBegin, valBegin + valLen) }

/-- Rust `BlockIterator::create_and_seek_to_first`. -/
def BlockIterator.createAndSeekToFirst (block : Block) : BlockIterator :=
  (BlockIterator.new block).seekToFirst

/-- The `while` loop of `BlockIterator::seek_to_key`, with explicit fuel.
Every iteration either increments `idx` (bounded by the offset count) or
clears the key and stops, so `offsets.length + 1` fuel is the exact loop. -/
def BlockIterator.seekLoop : Nat → BlockIterator → Bytes → BlockIterator
  | 0, it, _ => it
  | fuel + 1, it, target =>
    if it.isValid ∧ keyLt it.key target then
      BlockIterator.seekLoop fuel it.next target
    else it

/-- Rust `BlockIterator::seek_to_key`. -/
def BlockIterator.seekToKey (it : BlockIterator) (target : Bytes) : BlockIterator :=
  BlockIterator.seekLoop (it.block.offsets.length + 1) it.seekToFirst target

/-- Rust `BlockIterator::create_and_seek_to_key`. -/
def BlockIterator.createAndSeekToKey (block : Block) (target : Bytes) : BlockIterator :=
  (BlockIterator.new block).seekToKey target

end MiniLsm

namespace MiniLsm

/-! ## Block meta and SST (`src/mini-lsm-starter/src/table.rs`) -/

/-- Rust `BlockMeta`: offset of a data block plus its first and last key. -/
structure BlockMeta where
  offset : Nat
  firstKey : Bytes
  lastKey : Bytes
  deriving Repr, DecidableEq

/-- Rust `BlockMeta::encode_block_meta`: for each meta, offset as `u32`, then
length-prefixed first key, then length-prefixed last key. -/
def encodeBlockMeta (metas : List BlockMeta) : List Nat :=
  metas.flatMap fun m =>
    putU32 m.offset ++ putU16 m.firstKey.length ++ m.firstKey ++
      putU16 m.lastKey.length ++ m.lastKey

/-- Rust `get_u32` big-endian at byte offset `off` of `l`. -/
def getU32 (l : List Nat) (off : Nat) : Nat :=
  16777216 * l.getD off 0 + 65536 * l.getD (off + 1) 0 +
    256 * l.getD (off + 2) 0 + l.getD (off + 3) 0

/-- Rust `BlockMeta::decode_block_meta`: read records while the buffer has bytes.
Each record consumes `4 + 2 + first_key_len + 2 + last_key_len ≥ 8` bytes,
so `buf.length` units of fuel are more than the loop ever runs
(`(b0 :: rest).drop (8 + n) = rest.drop (7 + n)`). -/
def decodeBlockMetaFuel : Nat → List Nat → List BlockMeta
  | 0, _ => []
  | _, [] => []
  | fuel + 1, b0 :: rest =>
    let buf := b0 :: rest
    let offset := getU32 buf 0
    let firstKeyLen := getU16 buf 4
    let firstKey := slice buf 6 (6 + firstKeyLen)
    let lastKeyLen := getU16 buf (6 + firstKeyLen)
    let lastKey := slice buf (8 + firstKeyLen) (8 + firstKeyLen + lastKeyLen)
    { offset := offset, firstKey := firstKey, lastKey := lastKey } ::
      decodeBlockMetaFuel fuel (rest.drop (7 + firstKeyLen + lastKeyLen))

/-- Rust `BlockMeta::decode_block_meta`. -/
def decodeBlockMeta (buf : List Nat) : List BlockMeta :=
  decodeBlockMetaFuel buf.length buf

/-- Modelled from the spec: the bloom filter (`table/bloom.rs` is not part of
the sources).  The spec treats it as a black box
(`build_from_key_hashes`, `may_contain`) whose one guarantee is that a key
that was inserted is reported as possibly present (no false negatives).  We
model it exactly by the set of inserted keys, the tightest filter satisfying
that contract. -/
structure Bloom where
  keys : List Bytes
  deriving Repr, DecidableEq

/-- Modelled from the spec: `Bloom::may_contain` for the hash of `key`;
no false negatives, and our model also has no false positives. -/
def Bloom.mayContain (b : Bloom) (key : Bytes) : Bool := b.keys.contains key

/-- An opened `SsTable`.  `fileData` holds the on-disk bytes up to the meta
offset trailer; the bloom payload and trailer are kept structured (the bloom
byte format lives in `table/bloom.rs`, outside the sources).
`blockMeta`/`firstKey`/`lastKey` are the fields `SsTable::open` computes. -/
structure SsTable where
  fileData : List Nat
  blockMeta : List BlockMeta
  blockMetaOffset : Nat
  id : Nat
  firstKey : Bytes
  lastKey : Bytes
  bloom : Option Bloom
  deriving Repr, DecidableEq

def BlockMeta.default0 : BlockMeta := { offset := 0, firstKey := [], lastKey := [] }

/-- Rust `SsTable::read_block`: decode the byte range
`[meta[idx].offset, meta[idx+1].offset)` (or up to `block_meta_offset` for the
last block); out-of-range indices yield an empty block. -/
def SsTable.readBlock (t : SsTable) (blockIdx : Nat) : Block :=
  if blockIdx ≥ t.blockMeta.length then
    { data := [], offsets := [] }
  else
    let blockStart := (t.blockMeta.getD blockIdx BlockMeta.default0).offset
    let blockEnd :=
      if blockIdx = t.blockMeta.length - 1 then t.blockMetaOffset
      else (t.blockMeta.getD (blockIdx + 1) BlockMeta.default0).offset
    Block.decode (slice t.fileData blockStart blockEnd)

/-- Rust `slice::partition_point`: the Rust binary search returns the number of
leading elements satisfying `p` when the slice is partitioned by `p`, which
is `(l.takeWhile p).length`. -/
def partitionPoint (p : α → Bool) (l : List α) : Nat := (l.takeWhile p).length

/-- Rust `SsTable::find_block_idx`. -/
def SsTable.findBlockIdx (t : SsTable) (key : Bytes) : Nat :=
  if keyLt key t.firstKey then 0
  else if keyLt t.lastKey key then t.blockMeta.length
  else partitionPoint (fun m => keyLe m.firstKey key) t.blockMeta - 1

def SsTable.numOfBlocks (t : SsTable) : Nat := t.blockMeta.length

/-! ## SST builder (`src/mini-lsm-starter/src/table/builder.rs`) -/

/-- Rust `SsTableBuilder` state. -/
structure SsTableBuilder where
  builder : BlockBuilder
  firstKey : Bytes
  lastKey : Bytes
  data : List Nat
  meta : List BlockMeta
  blockSize : Nat
  keys : List Bytes
  deriving Repr, DecidableEq

/-- Rust `SsTableBuilder::new`. -/
def SsTableBuilder.new (blockSize : Nat) : SsTableBuilder :=
  { builder := BlockBuilder.new blockSize, firstKey := [], lastKey := [],
    data := [], meta := [], blockSize := blockSize, keys := [] }

/-- Rust `SsTableBuilder::freeze_block`. -/
def SsTableBuilder.freezeBlock (s : SsTableBuilder) : SsTableBuilder :=
  let blockMeta : BlockMeta :=
    { offset := s.data.length, firstKey := s.firstKey, lastKey := s.lastKey }
  { s with
    meta := s.meta ++ [blockMeta]
    firstKey := []
    lastKey := []
    builder := BlockBuilder.new s.blockSize
    data := s.data ++ s.builder.build.encode }

/-- Rust `SsTableBuilder::add`: retry into a fresh block after freezing when the
current block rejects the entry. -/
def SsTableBuilder.add (s : SsTableBuilder) (key value : Bytes) : SsTableBuilder :=
  let s :=
    match s.builder.add key value with
    | (true, bldr) => { s with builder := bldr }
    | (false, _) =>
      let s := s.freezeBlock
      { s with builder := (s.builder.add key value).2 }
  let s := if s.firstKey.isEmpty then { s with firstKey := key } else s
  { s with lastKey := key, keys := s.keys ++ [key] }

/-- Rust `SsTableBuilder::estimated_size`. -/
def SsTableBuilder.estimatedSize (s : SsTableBuilder) : Nat := s.data.length

/-- Rust `SsTableBuilder::build` composed with the `SsTable::open` it performs on
the written file: freeze the last block, append the encoded meta section and
the `u32` meta offset, and decode the fields the reader recovers.  The bloom
payload is carried structured (see `Bloom`). -/
def SsTableBuilder.buildSst (s : SsTableBuilder) (id : Nat) : SsTable :=
  let s := s.freezeBlock
  let metaOffset := s.data.length
  let metaBytes := encodeBlockMeta s.meta
  let blockMeta := decodeBlockMeta metaBytes
  { fileData := s.data ++ metaBytes ++ putU32 metaOffset
    blockMeta := blockMeta
    blockMetaOffset := metaOffset
    id := id
    firstKey := (blockMeta.headD BlockMeta.default0).firstKey
    lastKey := (blockMeta.getLastD BlockMeta.default0).lastKey
    bloom := some { keys := s.keys } }

/-! ## SST iterator (`src/mini-lsm-starter/src/table/iterator.rs`) -/

/-- Rust `SsTableIterator` state. -/
structure SsTableIterator where
  table : SsTable
  blkIter : BlockIterator
  blkIdx : Nat
  deriving Repr, DecidableEq

def SsTableIterator.isValid (it : SsTableIterator) : Bool := it.blkIter.isValid

def SsTableIterator.key (it : SsTableIterator) : Bytes := it.blkIter.key

def SsTableIterator.value (it : SsTableIterator) : Bytes := it.blkIter.value

/-- Rust `SsTableIterator::seek_to_first`. -/
def SsTableIterator.seekToFirst (it : SsTableIterator) : SsTableIterator :=
  { it with
    blkIdx := 0
    blkIter := BlockIterator.createAndSeekToFirst (it.table.readBlock 0) }

/-- Rust `SsTableIterator::create_and_seek_to_first`. -/
def SsTableIterator.createAndSeekToFirst (table : SsTable) : SsTableIterator :=
  SsTableIterator.seekToFirst
    { table := table
      blkIter := BlockIterator.createAndSeekToFirst (table.readBlock 0)
      blkIdx := 0 }

/-- Rust `SsTableIterator::next` (`read_block_cached` is a read-through cache, so
it returns the same block `read_block` does). -/
def SsTableIterator.next (it : SsTableIterator) : SsTableIterator :=
  let blkIter := it.blkIter.next
  if blkIter.isValid then
    { it with blkIter := blkIter }
  else
    let blkIdx := it.blkIdx + 1
    if blkIdx < it.table.numOfBlocks then
      { it with
        blkIdx := blkIdx
        blkIter := BlockIterator.createAndSeekToFirst (it.table.readBlock blkIdx) }
    else
      { it with blkIdx := blkIdx, blkIter := blkIter }

/-- The `loop` of `SsTableIterator::seek_to_key`, with explicit fuel.  Each
iteration consumes one entry of one block, so any fuel bounding the total
entry count of the table makes this the exact loop semantics. -/
def SsTableIterator.seekKeyLoop (fuel : Nat) (it : SsTableIterator) (target : Bytes) :
    SsTableIterator :=
  match fuel with
  | 0 => it
  | fuel + 1 =>
    if !it.blkIter.isValid ∨ keyLe target it.blkIter.key then it
    else SsTableIterator.seekKeyLoop fuel it.next target

/-- Fuel bound: one unit per byte of the file plus slack covers every entry
of every block. -/
def SsTable.fuelBound (t : SsTable) : Nat :=
  (t.blockMeta.length + 1) * (t.fileData.length + 2)

/-- Rust `SsTableIterator::seek_to_key`. -/
def SsTableIterator.seekToKey (it : SsTableIterator) (target : Bytes) : SsTableIterator :=
  let blkIdx := it.table.findBlockIdx target
  let it :=
    { it with
      blkIdx := blkIdx
      blkIter := BlockIterator.createAndSeekToFirst (it.table.readBlock blkIdx) }
  SsTableIterator.seekKeyLoop it.table.fuelBound it target

/-- Rust `SsTableIterator::create_and_seek_to_key`. -/
def SsTableIterator.createAndSeekToKey (table : SsTable) (target : Bytes) : SsTableIterator :=
  SsTableIterator.seekToKey
    { table := table
      blkIter := BlockIterator.createAndSeekToFirst (table.readBlock 0)
      blkIdx := 0 }
    target

/-- The stream of remaining entries of an `SsTableIterator`, extracted by
repeatedly calling `next` (with fuel, same bound argument as above). -/
def SsTableIterator.toListFuel (fuel : Nat) (it : SsTableIterator) : List Entry :=
  match fuel with
  | 0 => []
  | fuel + 1 =>
    if it.isValid then (it.key, it.value) :: SsTableIterator.toListFuel fuel it.next
    else []

def SsTableIterator.toList (it : SsTableIterator) : List Entry :=
  SsTableIterator.toListFuel it.table.fuelBound it

end MiniLsm

namespace MiniLsm

/-! ## Concat iterator (`src/mini-lsm-starter/src/iterators/concat_iterator.rs`) -/

/-- Rust `SstConcatIterator` state. -/
structure SstConcatIterator where
  current : Option SsTableIterator
  nextSstIdx : Nat
  sstables : List SsTable
  deriving Repr, DecidableEq

def SstConcatIterator.isValid (it : SstConcatIterator) : Bool :=
  match it.current with
  | some i => i.isValid
  | none => false

def SstConcatIterator.key (it : SstConcatIterator) : Bytes :=
  match it.current with
  | some i => i.key
  | none => []

def SstConcatIterator.value (it : SstConcatIterator) : Bytes :=
  match it.current with
  | some i => i.value
  | none => []

/-- Rust `SstConcatIterator::create_and_seek_to_first`. -/
def SstConcatIterator.createAndSeekToFirst (sstables : List SsTable) : SstConcatIterator :=
  match sstables with
  | [] => { current := none, nextSstIdx := 0, sstables := sstables }
  | t :: _ =>
    { current := some (SsTableIterator.createAndSeekToFirst t)
      nextSstIdx := 1
      sstables := sstables }

/-- Rust `SstConcatIterator::create_and_seek_to_key`. -/
def SstConcatIterator.createAndSeekToKey (sstables : List SsTable) (key : Bytes) :
    SstConcatIterator :=
  match sstables with
  | [] => { current := none, nextSstIdx := 0, sstables := sstables }
  | t :: _ =>
    let index :=
      if keyLt key t.firstKey then 0
      else partitionPoint (fun x => keyLe x.firstKey key) sstables - 1
    { current := some
        (SsTableIterator.createAndSeekToKey (sstables.getD index t) key)
      nextSstIdx := index + 1
      sstables := sstables }

/-- Rust `SstConcatIterator::next` (Rust unwraps `current`; with `None` it would
panic, which no caller reaches — we leave the state unchanged there). -/
def SstConcatIterator.next (it : SstConcatIterator) : SstConcatIterator :=
  match it.current with
  | none => it
  | some cur =>
    let it := { it with current := some cur.next }
    if !it.isValid ∧ it.nextSstIdx < it.sstables.length then
      { it with
        current := some (SsTableIterator.createAndSeekToFirst
          (it.sstables.getD it.nextSstIdx (SsTable.mk [] [] 0 0 [] [] none)))
        nextSstIdx := it.nextSstIdx + 1 }
    else it

/-- Fuel bound for walking a whole concat iterator. -/
def SstConcatIterator.fuelBound (it : SstConcatIterator) : Nat :=
  (it.sstables.map SsTable.fuelBound).sum + it.sstables.length + 2

def SstConcatIterator.toListFuel (fuel : Nat) (it : SstConcatIterator) : List Entry :=
  match fuel with
  | 0 => []
  | fuel + 1 =>
    if it.isValid then (it.key, it.value) :: SstConcatIterator.toListFuel fuel it.next
    else []

def SstConcatIterator.toList (it : SstConcatIterator) : List Entry :=
  SstConcatIterator.toListFuel it.fuelBound it

/-! ## k-way merge iterator

Modelled from the spec: `iterators/merge_iterator.rs` is not among the
sources.  Spec 4.3, MergeIterator: a min-heap keyed by `(current_key,
input_index)` where the lower input index wins ties; on `next` the top is
popped and every other input holding the same key is advanced too, so each
distinct key is emitted once with the value of the lowest-index input
carrying it.  We model the inputs as lists of entries. -/

/-- Modelled from the spec: the smallest current key among the inputs
(ties keep the earliest input, which is the heap order). -/
def mergeMinKey (ls : List (List Entry)) : Option Bytes :=
  ls.foldl
    (fun acc l =>
      match l with
      | [] => acc
      | (k, _) :: _ =>
        match acc with
        | none => some k
        | some m => if keyLt k m then some k else acc)
    none

/-- Modelled from the spec: the entry the heap top yields for key `m`
(the lowest-index input whose current key is `m`). -/
def mergeTopEntry (ls : List (List Entry)) (m : Bytes) : Entry :=
  (ls.filterMap fun l =>
    match l with
    | (k, v) :: _ => if k = m then some (k, v) else none
    | [] => none).headD ([], [])

/-- Modelled from the spec: advance every input whose current key is `m`. -/
def mergeAdvance (ls : List (List Entry)) (m : Bytes) : List (List Entry) :=
  ls.map fun l =>
    match l with
    | (k, _) :: rest => if k = m then rest else l
    | [] => []

/-- Modelled from the spec: the full output stream of `MergeIterator`
(with fuel; every step consumes at least one entry, so the total entry
count is enough fuel). -/
def mergeKFuel : Nat → List (List Entry) → List Entry
  | 0, _ => []
  | fuel + 1, ls =>
    match mergeMinKey ls with
    | none => []
    | some m => mergeTopEntry ls m :: mergeKFuel fuel (mergeAdvance ls m)

/-- Modelled from the spec: `MergeIterator` output over list inputs. -/
def mergeK (ls : List (List Entry)) : List Entry :=
  mergeKFuel (ls.map List.length).sum ls

/-! ## Two-merge iterator (`src/mini-lsm-starter/src/iterators/two_merge_iterator.rs`)

The two wrapped iterators are modelled as their streams of remaining
entries (`is_valid` = non-empty, `key`/`value` = head, `next` = tail; per
the iterator contract of spec 4.3, `next` on an exhausted iterator is a
no-op, which `List.tail [] = []` matches). -/

/-- Rust `TwoMergeIterator` state; `flag` is the code's `flag: bool`
(true: current entry comes from `a`). -/
structure TwoMergeIterator where
  a : List Entry
  b : List Entry
  flag : Bool
  deriving Repr, DecidableEq

/-- Head key of a stream (only read when non-empty). -/
def headKey (l : List Entry) : Bytes := (l.headD ([], [])).1

/-- Head value of a stream. -/
def headValue (l : List Entry) : Bytes := (l.headD ([], [])).2

/-- Rust `TwoMergeIterator::create`. -/
def TwoMergeIterator.create (a b : List Entry) : TwoMergeIterator :=
  let it : TwoMergeIterator := { a := a, b := b, flag := true }
  if a.isEmpty then { it with flag := false }
  else if b.isEmpty then it
  else if headKey a = headKey b then { it with b := b.tail }
  else if keyLt (headKey b) (headKey a) then { it with flag := false }
  else it

def TwoMergeIterator.isValid (it : TwoMergeIterator) : Bool :=
  !it.a.isEmpty || !it.b.isEmpty

def TwoMergeIterator.key (it : TwoMergeIterator) : Bytes :=
  if it.flag then headKey it.a else headKey it.b

def TwoMergeIterator.value (it : TwoMergeIterator) : Bytes :=
  if it.flag then headValue it.a else headValue it.b

/-- Rust `TwoMergeIterator::next`. -/
def TwoMergeIterator.next (it : TwoMergeIterator) : TwoMergeIterator :=
  let it := if it.flag then { it with a := it.a.tail } else { it with b := it.b.tail }
  if it.a.isEmpty then { it with flag := false }
  else if it.b.isEmpty then { it with flag := true }
  else if keyLt (headKey it.a) (headKey it.b) then { it with flag := true }
  else if headKey it.a = headKey it.b then { it with flag := true, b := it.b.tail }
  else { it with flag := false }

/-- Termination measure for walking a `TwoMergeIterator`: total remaining
entries, plus one for the (unreachable from `create`) states whose flag
points at an exhausted side while the other side is live. -/
def TwoMergeIterator.measure (it : TwoMergeIterator) : Nat :=
  it.a.length + it.b.length +
    (if it.flag = true ∧ it.a = [] ∧ it.b ≠ [] then 1 else 0) +
    (if it.flag = false ∧ it.b = [] ∧ it.a ≠ [] then 1 else 0)

theorem TwoMergeIterator.measure_next_lt (it : TwoMergeIterator)
    (h : it.isValid = true) : it.next.measure < it.measure := by
  obtain ⟨a, b, flag⟩ := it
  simp only [TwoMergeIterator.isValid, Bool.or_eq_true, Bool.not_eq_true',
    List.isEmpty_eq_false] at h
  cases flag <;> cases a <;> cases b <;>
    simp_all [TwoMergeIterator.next, TwoMergeIterator.measure, headKey] <;>
    (repeat' split) <;> simp_all [List.length_tail] <;> omega

/-- The stream a `TwoMergeIterator` emits. -/
def TwoMergeIterator.toList (it : TwoMergeIterator) : List Entry :=
  if h : it.isValid then (it.key, it.value) :: TwoMergeIterator.toList it.next
  else []
termination_by it.measure
decreasing_by exact TwoMergeIterator.measure_next_lt it h

end MiniLsm

namespace MiniLsm

/-! ## LSM iterator and fused iterator (`src/mini-lsm-starter/src/lsm_iterator.rs`)

The inner `LsmIteratorInner` (two-merge over memtables, L0 SSTs and sorted
runs) is modelled as its stream of remaining entries. -/

/-- Rust `std::ops::Bound` over keys. -/
inductive KeyBound where
  | unbounded : KeyBound
  | included : Bytes → KeyBound
  | excluded : Bytes → KeyBound
  deriving Repr, DecidableEq

/-- Rust `LsmIterator` state. -/
structure LsmIterator where
  inner : List Entry
  upper : KeyBound
  deriving Repr, DecidableEq

/-- Rust `LsmIterator::key` (head of the inner stream; only read while valid). -/
def LsmIterator.key (it : LsmIterator) : Bytes := headKey it.inner

/-- Rust `LsmIterator::value`. -/
def LsmIterator.value (it : LsmIterator) : Bytes := headValue it.inner

/-- Rust `LsmIterator::is_valid`: the inner iterator is valid and the current key
does not exceed the upper bound. -/
def LsmIterator.isValid (it : LsmIterator) : Bool :=
  if it.inner.isEmpty then false
  else
    match it.upper with
    | KeyBound.included k => keyLe it.key k
    | KeyBound.excluded k => keyLt it.key k
    | KeyBound.unbounded => true

/-- The `while iter.is_valid() && iter.value().is_empty()` loop shared by
`LsmIterator::new` and `LsmIterator::next`: skip tombstones.  Each iteration
needs a valid, hence non-empty, inner stream and shortens it, so
`inner.length + 1` fuel is the exact loop. -/
def LsmIterator.skipDeletedFuel : Nat → LsmIterator → LsmIterator
  | 0, it => it
  | fuel + 1, it =>
    if it.isValid ∧ it.value.isEmpty then
      LsmIterator.skipDeletedFuel fuel { it with inner := it.inner.tail }
    else it

def LsmIterator.skipDeleted (it : LsmIterator) : LsmIterator :=
  LsmIterator.skipDeletedFuel (it.inner.length + 1) it

/-- Rust `LsmIterator::new`. -/
def LsmIterator.new (inner : List Entry) (upper : KeyBound) : LsmIterator :=
  LsmIterator.skipDeleted { inner := inner, upper := upper }

/-- Rust `LsmIterator::next`: give up before the bound check fails, otherwise
advance the inner iterator and skip tombstones. -/
def LsmIterator.next (it : LsmIterator) : LsmIterator :=
  let out :=
    match it.upper with
    | KeyBound.included k => keyLt k it.key
    | KeyBound.excluded k => keyLe k it.key
    | KeyBound.unbounded => false
  if out then it
  else LsmIterator.skipDeleted { it with inner := it.inner.tail }

/-! ### `FusedIterator`

Parametrised over the wrapped iterator: `σ` is its state, `isValidFn`
its `is_valid`, and `nextFn` its `next`, returning the state after the call
together with `true` when the call returned an error. -/

/-- Rust `FusedIterator` state. -/
structure FusedIterator (σ : Type) where
  iter : σ
  hasErrored : Bool
  deriving Repr, DecidableEq

/-- Rust `FusedIterator::is_valid`. -/
def FusedIterator.isValid (isValidFn : σ → Bool) (f : FusedIterator σ) : Bool :=
  !f.hasErrored && isValidFn f.iter

/-- Observable outcome of one `FusedIterator::next` call: the state after the
call, whether the call returned `Ok`, and whether the wrapped iterator's
`next` was invoked. -/
structure FusedStep (σ : Type) where
  state : FusedIterator σ
  ok : Bool
  calledUnderlying : Bool
  deriving Repr, DecidableEq

/-- Rust `FusedIterator::next`. -/
def FusedIterator.next (isValidFn : σ → Bool) (nextFn : σ → σ × Bool)
    (f : FusedIterator σ) : FusedStep σ :=
  if f.hasErrored then
    { state := f, ok := false, calledUnderlying := false }
  else if !(FusedIterator.isValid isValidFn f) then
    { state := f, ok := true, calledUnderlying := false }
  else
    let r := nextFn f.iter
    if r.2 then
      { state := { iter := r.1, hasErrored := true }, ok := false, calledUnderlying := true }
    else
      { state := { iter := r.1, hasErrored := false }, ok := true, calledUnderlying := true }

/-- Iterate `FusedIterator::next` `n` times, keeping only the state. -/
def FusedIterator.iterate (isValidFn : σ → Bool) (nextFn : σ → σ × Bool)
    (f : FusedIterator σ) : Nat → FusedIterator σ
  | 0 => f
  | n + 1 =>
    FusedIterator.iterate isValidFn nextFn (FusedIterator.next isValidFn nextFn f).state n

end MiniLsm

namespace MiniLsm

/-! ## Memtable

Modelled from the spec: `mem_table.rs` is not among the sources.  Spec 4.4:
a lexicographically ordered map with point `get` and `put`; `flush(builder)`
iterates entries in order calling `builder.add`.  We model it as a sorted
association list with set semantics. -/

/-- Insert into a key-sorted entry list, replacing an existing binding. -/
def insertEntry : List Entry → Bytes → Bytes → List Entry
  | [], k, v => [(k, v)]
  | (k', v') :: rest, k, v =>
    if k = k' then (k, v) :: rest
    else if keyLt k k' then (k, v) :: (k', v') :: rest
    else (k', v') :: insertEntry rest k v

/-- Modelled from the spec: a memtable is an id plus an ordered map. -/
structure MemTable where
  id : Nat
  entries : List Entry
  deriving Repr, DecidableEq

/-- Modelled from the spec: `MemTable::create`. -/
def MemTable.create (id : Nat) : MemTable := { id := id, entries := [] }

/-- Modelled from the spec: `MemTable::get`. -/
def MemTable.get (m : MemTable) (k : Bytes) : Option Bytes :=
  (m.entries.find? fun e => e.1 == k).map (·.2)

/-- Modelled from the spec: `MemTable::put`. -/
def MemTable.put (m : MemTable) (k v : Bytes) : MemTable :=
  { m with entries := insertEntry m.entries k v }

/-- Modelled from the spec: `MemTable::is_empty`. -/
def MemTable.isEmpty (m : MemTable) : Bool := m.entries.isEmpty

/-- Modelled from the spec: `MemTable::flush` — add every entry, in key
order, to the SST builder. -/
def MemTable.flushInto (m : MemTable) (builder : SsTableBuilder) : SsTableBuilder :=
  m.entries.foldl (fun b e => b.add e.1 e.2) builder

/-! ## Engine state (`src/mini-lsm-starter/src/lsm_storage.rs`) -/

/-- Rust `LsmStorageState`.  The `sstables` id map is an association list. -/
structure LsmStorageState where
  memtable : MemTable
  immMemtables : List MemTable
  l0Sstables : List Nat
  levels : List (Nat × List Nat)
  sstables : List (Nat × SsTable)
  deriving Repr, DecidableEq

/-- The placeholder a missing `sstables[id]` lookup yields (the Rust map
index would panic; no modelled execution reaches it). -/
def SsTable.empty : SsTable :=
  { fileData := [], blockMeta := [], blockMetaOffset := 0, id := 0,
    firstKey := [], lastKey := [], bloom := none }

/-- Rust `snapshot.sstables[&id]`. -/
def LsmStorageState.getSstable (s : LsmStorageState) (id : Nat) : SsTable :=
  ((s.sstables.find? fun p => p.1 == id).map (·.2)).getD SsTable.empty

/-- Rust `sstables.insert(id, sst)` on the association-list map. -/
def sstMapInsert (m : List (Nat × SsTable)) (id : Nat) (t : SsTable) : List (Nat × SsTable) :=
  if m.any (fun p => p.1 == id) then
    m.map fun p => if p.1 == id then (id, t) else p
  else m ++ [(id, t)]

/-- Rust `key_within` (`lsm_storage.rs`): `table_begin <= user_key <= table_end`. -/
def keyWithin (userKey tableBegin tableEnd : Bytes) : Bool :=
  keyLe tableBegin userKey && keyLe userKey tableEnd

/-! ## Compaction tasks and controllers
(`src/mini-lsm-starter/src/compact.rs`, `compact/simple_leveled.rs`,
`compact/tiered.rs`; the leveled controller is reserved/unimplemented and
not modelled) -/

/-- Rust `SimpleLeveledCompactionTask`. -/
structure SimpleLeveledCompactionTask where
  upperLevel : Option Nat
  upperLevelSstIds : List Nat
  lowerLevel : Nat
  lowerLevelSstIds : List Nat
  isLowerLevelBottomLevel : Bool
  deriving Repr, DecidableEq

/-- Rust `TieredCompactionTask`. -/
structure TieredCompactionTask where
  tiers : List (Nat × List Nat)
  bottomTierIncluded : Bool
  deriving Repr, DecidableEq

/-- Rust `CompactionTask` (the unimplemented `Leveled` variant is omitted). -/
inductive CompactionTask where
  | simple (task : SimpleLeveledCompactionTask)
  | tiered (task : TieredCompactionTask)
  | forceFullCompaction (l0Sstables : List Nat) (l1Sstables : List Nat)
  deriving Repr, DecidableEq

/-- Rust `CompactionTask::compact_to_bottom_level`. -/
def CompactionTask.compactToBottomLevel : CompactionTask → Bool
  | CompactionTask.forceFullCompaction _ _ => true
  | CompactionTask.simple task => task.isLowerLevelBottomLevel
  | CompactionTask.tiered task => task.bottomTierIncluded

/-- Replace the SST-id vector of `levels[i]`, keeping the level number
(Rust `state.levels[i].1 = v` / `.clear()`). -/
def setLevelVec (levels : List (Nat × List Nat)) (i : Nat) (v : List Nat) :
    List (Nat × List Nat) :=
  levels.set i ((levels.getD i (0, [])).1, v)

/-- Rust `SimpleLeveledCompactionController::apply_compaction_result`.
(In the L0 branch `truncate(len - n)` is `usize` arithmetic; the modelled
traces never underflow with a different result, since `truncate` of an
underflowed length is a no-op on an already short vector.) -/
def SimpleLeveledCompactionController.applyCompactionResult
    (snapshot : LsmStorageState) (task : SimpleLeveledCompactionTask)
    (output : List Nat) : LsmStorageState × List Nat :=
  let del := task.upperLevelSstIds ++ task.lowerLevelSstIds
  match task.upperLevel with
  | none =>
    ({ snapshot with
        l0Sstables :=
          snapshot.l0Sstables.take
            (snapshot.l0Sstables.length - task.upperLevelSstIds.length)
        levels := snapshot.levels.set 0 (task.lowerLevel, output) },
      del)
  | some u =>
    ({ snapshot with
        levels := setLevelVec (setLevelVec snapshot.levels (u - 1) [])
          (task.lowerLevel - 1) output },
      del)

/-- The rebuild loop of `TieredCompactionController::apply_compaction_result`:
walk `levels`, dropping compacted tiers and inserting the new tier where the
last compacted one stood.  `delIters` models the `HashSet` of compacted tier
ids (`filter (· ≠ id)` is set removal). -/
def tieredRebuildLevels (output : List Nat) :
    List (Nat × List Nat) → List Nat → List (Nat × List Nat)
  | [], _ => []
  | (id, v) :: rest, delIters =>
    if delIters.contains id then
      let delIters' := delIters.filter (· ≠ id)
      if delIters'.isEmpty then
        (output.headD 0, output) :: tieredRebuildLevels output rest delIters'
      else tieredRebuildLevels output rest delIters'
    else (id, v) :: tieredRebuildLevels output rest delIters

/-- Rust `TieredCompactionController::apply_compaction_result`. -/
def TieredCompactionController.applyCompactionResult
    (snapshot : LsmStorageState) (task : TieredCompactionTask)
    (output : List Nat) : LsmStorageState × List Nat :=
  let del := task.tiers.flatMap (·.2)
  ({ snapshot with
      levels := tieredRebuildLevels output snapshot.levels (task.tiers.map (·.1)) },
    del)

/-- Rust `CompactionController` (the `Leveled` variant is not modelled). -/
inductive CompactionController where
  | simple : CompactionController
  | tiered : CompactionController
  | noCompaction : CompactionController
  deriving Repr, DecidableEq

/-- Rust `CompactionController::apply_compaction_result` dispatch (mismatched
pairs are `unreachable!` in Rust; we return the snapshot unchanged). -/
def CompactionController.applyCompactionResult (c : CompactionController)
    (snapshot : LsmStorageState) (task : CompactionTask) (output : List Nat) :
    LsmStorageState × List Nat :=
  match c, task with
  | CompactionController.simple, CompactionTask.simple task =>
    SimpleLeveledCompactionController.applyCompactionResult snapshot task output
  | CompactionController.tiered, CompactionTask.tiered task =>
    TieredCompactionController.applyCompactionResult snapshot task output
  | _, _ => (snapshot, [])

/-- Rust `CompactionController::flush_to_l0`. -/
def CompactionController.flushToL0 : CompactionController → Bool
  | CompactionController.simple => true
  | CompactionController.noCompaction => true
  | CompactionController.tiered => false

/-! ## Compaction execution (`src/mini-lsm-starter/src/compact.rs`) -/

/-- The entry-processing `while` loop shared by `compact_tiers` and
`compact_two_level`: entries with an empty value are skipped, every other
entry is added to the output SST builders.  (The split of the output into
SSTs of `target_sst_size` distributes this same stream over files and is
not modelled; the stream is exactly what the produced SSTs contain.) -/
def compactLoopEntries : List Entry → List Entry
  | [] => []
  | (k, v) :: rest =>
    if v.isEmpty then compactLoopEntries rest
    else (k, v) :: compactLoopEntries rest

/-- Rust `LsmStorageInner::compact_two_level`: one `SsTableIterator` per upper
then lower SST, merged, then the skip-tombstones loop. -/
def compactTwoLevelEntries (snapshot : LsmStorageState)
    (upperLevel lowerLevel : List Nat) : List Entry :=
  let iters := (upperLevel ++ lowerLevel).map fun i =>
    (SsTableIterator.createAndSeekToFirst (snapshot.getSstable i)).toList
  compactLoopEntries (mergeK iters)

/-- Rust `LsmStorageInner::compact_tiers`: one `SstConcatIterator` per tier,
merged, then the skip-tombstones loop. -/
def compactTiersEntries (snapshot : LsmStorageState)
    (tiers : List (Nat × List Nat)) : List Entry :=
  let iters := tiers.map fun t =>
    (SstConcatIterator.createAndSeekToFirst (t.2.map snapshot.getSstable)).toList
  compactLoopEntries (mergeK iters)

/-- Rust `LsmStorageInner::compact`: the stream of entries written to the output
SSTs of a compaction task. -/
def compactEntries (snapshot : LsmStorageState) : CompactionTask → List Entry
  | CompactionTask.tiered task => compactTiersEntries snapshot task.tiers
  | CompactionTask.simple task =>
    compactTwoLevelEntries snapshot task.upperLevelSstIds task.lowerLevelSstIds
  | CompactionTask.forceFullCompaction l0 l1 => compactTwoLevelEntries snapshot l0 l1

end MiniLsm

namespace MiniLsm

/-! ## Manifest and recovery (`src/mini-lsm-starter/src/manifest.rs`,
`LsmStorageInner::open` in `src/mini-lsm-starter/src/lsm_storage.rs`) -/

/-- Rust `ManifestRecord`. -/
inductive ManifestRecord where
  | flush (id : Nat)
  | newMemtable (id : Nat)
  | compaction (task : CompactionTask) (output : List Nat)
  deriving Repr, DecidableEq

/-- Rust `LsmStorageState::create`: the levels of a fresh state.  For
simple-leveled compaction, `max_levels` empty levels numbered from 1; one
level for `NoCompaction`; none for tiered. -/
def initialLevels : CompactionController → Nat → List (Nat × List Nat)
  | CompactionController.simple, maxLevels =>
    (List.range maxLevels).map fun i => (i + 1, [])
  | CompactionController.noCompaction, _ => [(1, [])]
  | CompactionController.tiered, _ => []

/-- Rust `LsmStorageState::create`. -/
def LsmStorageState.create (ctrl : CompactionController) (maxLevels : Nat) :
    LsmStorageState :=
  { memtable := MemTable.create 0
    immMemtables := []
    l0Sstables := []
    levels := initialLevels ctrl maxLevels
    sstables := [] }

/-- The accumulator of the manifest-replay loop in `LsmStorageInner::open`:
`max_id`, the `memtables` id set, and the state under reconstruction. -/
structure RecoveryAcc where
  maxId : Nat
  memtables : List Nat
  state : LsmStorageState
  deriving Repr, DecidableEq

/-- One iteration of the replay loop of `LsmStorageInner::open`:
`Flush(id)` bumps `max_id`, removes the memtable id and prepends a
single-SST level entry; `NewMemtable(id)` bumps `max_id` and records the id
(set semantics; the ascending iteration order of the `BTreeSet` only
matters for WAL recovery, which the claims run with `enable_wal = false`);
`Compaction` applies the controller with `in_recovery = true`. -/
def replayRecord (ctrl : CompactionController) (acc : RecoveryAcc) :
    ManifestRecord → RecoveryAcc
  | ManifestRecord.flush id =>
    { acc with
      maxId := max acc.maxId id
      memtables := acc.memtables.filter (· ≠ id)
      state := { acc.state with levels := (id, [id]) :: acc.state.levels } }
  | ManifestRecord.newMemtable id =>
    { acc with
      maxId := max acc.maxId id
      memtables :=
        if acc.memtables.contains id then acc.memtables else acc.memtables ++ [id] }
  | ManifestRecord.compaction task output =>
    { acc with
      state := (ctrl.applyCompactionResult acc.state task output).1 }

/-- The full replay loop over the recovered manifest records. -/
def replayRecords (ctrl : CompactionController) (maxLevels : Nat)
    (records : List ManifestRecord) : RecoveryAcc :=
  records.foldl (replayRecord ctrl)
    { maxId := 0, memtables := [], state := LsmStorageState.create ctrl maxLevels }

/-- After replay, `open` opens every SST referenced by `levels` and inserts
it into the `sstables` map; `disk` maps SST ids to the tables their files
decode to. -/
def openLevelSsts (disk : List (Nat × SsTable)) (state : LsmStorageState) :
    LsmStorageState :=
  { state with
    sstables :=
      (state.levels.flatMap (·.2)).foldl
        (fun m id =>
          sstMapInsert m id
            (((disk.find? fun p => p.1 == id).map (·.2)).getD SsTable.empty))
        state.sstables }

/-- The outcome of `LsmStorageInner::open` on an existing manifest (with
`enable_wal = false`): the recovered state and the initial value of the
`next_sst_id` counter, `max_id + 1`. -/
def openRecovered (ctrl : CompactionController) (maxLevels : Nat)
    (records : List ManifestRecord) (disk : List (Nat × SsTable)) :
    LsmStorageState × Nat :=
  let acc := replayRecords ctrl maxLevels records
  (openLevelSsts disk acc.state, acc.maxId + 1)

/-- Every SST id the recovered state references (`l0_sstables` and all
`levels`). -/
def LsmStorageState.referencedSstIds (s : LsmStorageState) : List Nat :=
  s.l0Sstables ++ s.levels.flatMap (·.2)

/-! ## Point lookup (`LsmStorageInner::get` in `lsm_storage.rs`).  The merge
layers over the SSTs are the embedded iterators, streamed to lists;
`MergeIterator::create` over them is the spec-modelled `mergeK`. -/

/-- The L0 leg of `get`: for each L0 SST (newest first), skip it when the
bloom filter rules the key out or the key is outside its range, otherwise
seek it to the key; merge the streams. -/
def getL0Entries (snapshot : LsmStorageState) (key : Bytes) : List Entry :=
  mergeK <|
    (snapshot.l0Sstables.filterMap fun id =>
      let table := snapshot.getSstable id
      if table.bloom.elim false (fun b => !(b.mayContain key)) then none
      else if keyWithin key table.firstKey table.lastKey then
        some (SsTableIterator.createAndSeekToKey table key).toList
      else none)

/-- The levels leg of `get`: per level, the bloom/range-filtered SSTs feed
one concat iterator seeked to the key; the per-level streams are merged. -/
def getLevelEntries (snapshot : LsmStorageState) (key : Bytes) : List Entry :=
  mergeK <|
    snapshot.levels.map fun lvl =>
      let levelSsts := lvl.2.filterMap fun id =>
        let table := snapshot.getSstable id
        if table.bloom.elim false (fun b => !(b.mayContain key)) then none
        else if keyWithin key table.firstKey table.lastKey then some table
        else none
      (SstConcatIterator.createAndSeekToKey levelSsts key).toList

/-- Rust `LsmStorageInner::get`: memtable, then immutable memtables newest first
(an empty value is "deleted"), then the two-merge of the L0 and level legs,
returning the value iff the final iterator sits exactly on `key` with a
non-empty value. -/
def LsmStorageInner.get (snapshot : LsmStorageState) (key : Bytes) : Option Bytes :=
  match snapshot.memtable.get key with
  | some v => if v.isEmpty then none else some v
  | none =>
    match snapshot.immMemtables.findSome? (fun m => m.get key) with
    | some v => if v.isEmpty then none else some v
    | none =>
      let iter := TwoMergeIterator.create (getL0Entries snapshot key)
        (getLevelEntries snapshot key)
      if iter.isValid ∧ iter.key = key ∧ ¬iter.value.isEmpty then some iter.value
      else none

end MiniLsm

namespace MiniLsm

/-! ## Freeze, flush and close (`lsm_storage.rs`) -/

/-- Rust `LsmStorageInner::force_freeze_memtable`: a fresh memtable with the
freshly allocated id replaces the current one, which becomes the newest
immutable memtable.  (Appends `NewMemtable(id)` to the manifest.) -/
def forceFreezeMemtable (state : LsmStorageState) (newId : Nat) : LsmStorageState :=
  { state with
    memtable := MemTable.create newId
    immMemtables := state.memtable :: state.immMemtables }

/-- Rust `LsmStorageInner::force_flush_next_imm_memtable`: build an SST (id =
the memtable's id) from the oldest immutable memtable, drop the memtable,
and register the SST in L0 (or as a new tier when not flushing to L0).
Returns the flushed id and table (the manifest gets `Flush(id)`). -/
def forceFlushNextImmMemtable (ctrl : CompactionController) (blockSize : Nat)
    (state : LsmStorageState) : LsmStorageState × Option (Nat × SsTable) :=
  match state.immMemtables.getLast? with
  | none => (state, none)
  | some mem =>
    let sst := (mem.flushInto (SsTableBuilder.new blockSize)).buildSst mem.id
    ({ state with
        immMemtables := state.immMemtables.dropLast
        l0Sstables :=
          if ctrl.flushToL0 then mem.id :: state.l0Sstables else state.l0Sstables
        levels :=
          if ctrl.flushToL0 then state.levels else (mem.id, [mem.id]) :: state.levels
        sstables := sstMapInsert state.sstables mem.id sst },
      some (mem.id, sst))

end MiniLsm

namespace MiniLsm

/-! ## Helper lemmas -/

theorem length_flatMap_putU16 (l : List Nat) : (l.flatMap putU16).length = 2 * l.length := by
  induction l with
  | nil => rfl
  | cons x xs ih => simp [List.flatMap_cons, putU16, ih]; omega

/-- The encoded size the block would have after appending `(key, value)`
prefix-compressed plus its offset slot: data bytes, `2 * entry count`, and
the 2-byte count. -/
def BlockBuilder.encodedSizeAfter (b : BlockBuilder) (key value : Bytes) : Nat :=
  (b.data.length +
      (KEY_PREFIX_LEN_SIZE + REST_KEY_LEN_SIZE +
        (key.length - longestCommonPrefixLen b.firstKey key) +
        VALUE_LEN_SIZE + value.length)) +
    2 * (b.offsets.length + 1) + EXTRA_SIZE

end MiniLsm

namespace MiniLsm

/-- C9.  `BlockBuilder::add` rejects exactly when the block is non-empty and
the block encoding after appending the prefix-compressed entry plus its
offset slot would exceed `block_size`; the first entry is always accepted;
an accepted entry is appended with its start offset recorded, and for a
non-empty block the resulting encoded size is exactly the predicted one. -/
theorem blockBuilder_add_spec (b : BlockBuilder) (key value : Bytes) :
    ((b.add key value).1 = false ↔
      b.data ≠ [] ∧ b.encodedSizeAfter key value > b.blockSize) ∧
    (b.data = [] → (b.add key value).1 = true) ∧
    ((b.add key value).1 = true →
      (b.add key value).2.offsets = b.offsets ++ [b.data.length % 65536] ∧
      (b.data ≠ [] →
        (b.add key value).2.build.encode.length = b.encodedSizeAfter key value)) := by
  by_cases hempty : b.data = []
  · refine ⟨?_, ?_, ?_⟩
    · simp [BlockBuilder.add, hempty]
    · intro _
      simp [BlockBuilder.add, hempty]
    · intro _
      refine ⟨?_, fun h => absurd hempty h⟩
      simp [BlockBuilder.add, hempty]
  · have hne : b.data.isEmpty = false := by
      simpa [List.isEmpty_iff] using hempty
    by_cases hfull :
        b.data.length + 2 * b.offsets.length + EXTRA_SIZE +
          (KEY_PREFIX_LEN_SIZE + REST_KEY_LEN_SIZE +
            (key.length - longestCommonPrefixLen b.firstKey key) +
            VALUE_LEN_SIZE + value.length + OFFSET_SIZE) > b.blockSize
    · refine ⟨?_, fun h => absurd h hempty, ?_⟩
      · constructor
        · intro _
          refine ⟨hempty, ?_⟩
          simp only [BlockBuilder.encodedSizeAfter, KEY_PREFIX_LEN_SIZE,
            REST_KEY_LEN_SIZE, VALUE_LEN_SIZE, OFFSET_SIZE, EXTRA_SIZE] at hfull ⊢
          omega
        · intro _
          simp [BlockBuilder.add, hne, hfull]
      · intro htrue
        exfalso
        simp [BlockBuilder.add, hne, hfull] at htrue
    · refine ⟨?_, fun h => absurd h hempty, ?_⟩
      · constructor
        · intro hfalse
          exfalso
          simp [BlockBuilder.add, hne, hfull] at hfalse
        · rintro ⟨-, hsz⟩
          exfalso
          simp only [BlockBuilder.encodedSizeAfter, KEY_PREFIX_LEN_SIZE,
            REST_KEY_LEN_SIZE, VALUE_LEN_SIZE, OFFSET_SIZE, EXTRA_SIZE] at hsz hfull
          omega
      · intro _
        constructor
        · simp [BlockBuilder.add, hne, hfull]
        · intro _
          simp only [BlockBuilder.add, hne, Bool.false_eq_true, if_false, hfull,
            if_neg hfull, gt_iff_lt, not_lt]
          simp only [BlockBuilder.build, Block.encode, BlockBuilder.encodedSizeAfter,
            List.length_append, length_flatMap_putU16, putU16, KEY_PREFIX_LEN_SIZE,
            REST_KEY_LEN_SIZE, VALUE_LEN_SIZE, OFFSET_SIZE, EXTRA_SIZE,
            List.length_cons, List.length_nil, List.length_drop]
          omega

/-- Closed instance of `blockBuilder_add_spec` at a concrete 16-byte block
with one entry and an incoming entry that would overflow it. -/
theorem blockBuilder_add_spec_witness :
    ((((BlockBuilder.new 16).add [97] [49]).2.add [98] [50, 51]).1 = false ↔
      ((((BlockBuilder.new 16).add [97] [49]).2.data ≠ []) ∧
        ((((BlockBuilder.new 16).add [97] [49]).2.encodedSizeAfter [98] [50, 51]) > 16))) ∧
    ((((BlockBuilder.new 16).add [97] [49]).2.add [98] [50, 51]).1 = false) :=
  ⟨(blockBuilder_add_spec (((BlockBuilder.new 16).add [97] [49]).2) [98] [50, 51]).1,
    by decide⟩

end MiniLsm

namespace MiniLsm

/-! ## Concrete developments for the block iterator round trip -/

/-- Two strictly increasing entries accepted by a 4096-byte `BlockBuilder`
and finalized with `build`. -/
def c2Block : Block :=
  ((((BlockBuilder.new 4096).add [97, 98] [49]).2).add [97, 99] [50]).2.build

end MiniLsm

namespace MiniLsm

/-- C2.  The builder writes prefix-compressed entries
(`[prefix_len u16][rest_len u16][rest][val_len u16][val]`), but the iterator
parses `[key_len u16][key][val_len u16][val]`: on the block built from the
accepted entries `("ab","1"), ("ac","2")`, `seek_to_first` reads the
`prefix_len` field `0` as the key length, produces the empty key, and the
iterator is immediately invalid — no entry is yielded, against the claimed
round trip. -/
theorem blockIterator_seekToFirst_mismatch :
    ((((BlockBuilder.new 4096).add [97, 98] [49]).2).add [97, 99] [50]).1 = true ∧
    (BlockIterator.createAndSeekToFirst c2Block).key = [] ∧
    (BlockIterator.createAndSeekToFirst c2Block).isValid = false := by
  decide

/-- C1.  The compaction entry loop of `compact_tiers`/`compact_two_level`
drops every empty-value entry unconditionally: the task below does not reach
the bottom level (`compact_to_bottom_level = false`), yet the tombstone
`("k", "")` is not preserved in the output stream, and in general no
tombstone ever survives the loop. -/
theorem compact_drops_tombstones_on_non_bottom_task :
    (CompactionTask.simple
        { upperLevel := some 1, upperLevelSstIds := [10], lowerLevel := 2,
          lowerLevelSstIds := [11],
          isLowerLevelBottomLevel := false }).compactToBottomLevel = false ∧
    compactLoopEntries [([107], []), ([108], [49])] = [([108], [49])] ∧
    ∀ es : List Entry, ∀ e ∈ compactLoopEntries es, e.2 ≠ [] := by
  refine ⟨by decide, by decide, ?_⟩
  intro es
  induction es with
  | nil => simp [compactLoopEntries]
  | cons e rest ih =>
    obtain ⟨k, v⟩ := e
    by_cases hv : v.isEmpty
    · simpa [compactLoopEntries, hv] using ih
    · intro e' he'
      simp only [compactLoopEntries, hv, Bool.false_eq_true, if_false,
        List.mem_cons] at he'
      rcases he' with rfl | he'
      · simpa [List.isEmpty_iff] using hv
      · exact ih e' he'

/-- Closed instance of `compact_drops_tombstones_on_non_bottom_task`:
the surviving entry of the concrete stream has a non-empty value. -/
theorem compact_drops_tombstones_witness : ([108], [49]).2 ≠ ([] : Bytes) :=
  compact_drops_tombstones_on_non_bottom_task.2.2
    [([107], []), ([108], [49])] ([108], [49]) (by decide)

/-! ## Concrete development for recovery id allocation -/

/-- A manifest an engine under simple-leveled compaction writes for: two
freezes (memtable ids 1, 2), two flushes (SST ids 0, 1), then the L0→L1
compaction of both flushed SSTs into output SST 3, after which the (empty)
memtable 2 makes `close` write nothing further. -/
def c4Records : List ManifestRecord :=
  [ManifestRecord.newMemtable 1, ManifestRecord.newMemtable 2,
    ManifestRecord.flush 0, ManifestRecord.flush 1,
    ManifestRecord.compaction
      (CompactionTask.simple
        { upperLevel := none, upperLevelSstIds := [1, 0], lowerLevel := 1,
          lowerLevelSstIds := [], isLowerLevelBottomLevel := false })
      [3]]

def c4Open : LsmStorageState × Nat :=
  openRecovered CompactionController.simple 2 c4Records []

/-- C4.  Recovery computes `max_id` only from `Flush` and `NewMemtable`
records, never from compaction outputs: on `c4Records` it assigns
`next_sst_id = 3` although SST 3 — a compaction output — is referenced by
the recovered state, so the next allocated id collides with it. -/
theorem open_next_sst_id_collides :
    c4Open.2 = 3 ∧ 3 ∈ c4Open.1.referencedSstIds ∧ ¬(3 < c4Open.2) := by
  decide

/-! ## Concrete development for close/reopen -/

/-- Fresh engine state (`NoCompaction`). -/
def c3Fresh : LsmStorageState :=
  LsmStorageState.create CompactionController.noCompaction 0

/-- After `put("a", "1")`. -/
def c3AfterPut : LsmStorageState :=
  { c3Fresh with memtable := c3Fresh.memtable.put [97] [49] }

/-- Rust `close` freezes the memtable (new id 1, manifest `NewMemtable(1)`)... -/
def c3Frozen : LsmStorageState := forceFreezeMemtable c3AfterPut 1

/-- ...and flushes the frozen memtable into SST 0 (manifest `Flush(0)`). -/
def c3FlushRes : LsmStorageState × Option (Nat × SsTable) :=
  forceFlushNextImmMemtable CompactionController.noCompaction 4096 c3Frozen

/-- The SST files on disk at reopen. -/
def c3Disk : List (Nat × SsTable) :=
  match c3FlushRes.2 with
  | some (id, sst) => [(id, sst)]
  | none => []

/-- The state `LsmStorageInner::open` recovers from the manifest records
`close` wrote, opening the flushed SST from disk. -/
def c3Recovered : LsmStorageState :=
  (openRecovered CompactionController.noCompaction 0
    [ManifestRecord.newMemtable 1, ManifestRecord.flush 0] c3Disk).1

end MiniLsm

namespace MiniLsm

/-- C3.  Reopening does not reproduce the logical map: before `close`,
`get("a")` served `"1"` from the memtable; after replaying the manifest and
opening SST 0 — whose metadata does cover the key — the recovered engine
returns `None` for the same key, because the SST read path cannot decode
the blocks the builder wrote (the C2 format mismatch). -/
theorem reopen_loses_flushed_key :
    LsmStorageInner.get c3AfterPut [97] = some [49] ∧
    (c3Recovered.getSstable 0).firstKey = [97] ∧
    (c3Recovered.getSstable 0).lastKey = [97] ∧
    LsmStorageInner.get c3Recovered [97] = none := by
  decide

/-- C10.  Both `apply_compaction_result` implementations keep `memtable`,
`imm_memtables` and the `sstables` map of the snapshot unchanged (only
`l0_sstables` and `levels` differ), and return exactly the concatenation of
the task's input SST ids as the ids to delete. -/
theorem apply_compaction_result_frame (snapshot : LsmStorageState)
    (stask : SimpleLeveledCompactionTask) (ttask : TieredCompactionTask)
    (output : List Nat) :
    (SimpleLeveledCompactionController.applyCompactionResult snapshot stask
        output).1.memtable = snapshot.memtable ∧
    (SimpleLeveledCompactionController.applyCompactionResult snapshot stask
        output).1.immMemtables = snapshot.immMemtables ∧
    (SimpleLeveledCompactionController.applyCompactionResult snapshot stask
        output).1.sstables = snapshot.sstables ∧
    (SimpleLeveledCompactionController.applyCompactionResult snapshot stask
        output).2 = stask.upperLevelSstIds ++ stask.lowerLevelSstIds ∧
    (TieredCompactionController.applyCompactionResult snapshot ttask
        output).1.memtable = snapshot.memtable ∧
    (TieredCompactionController.applyCompactionResult snapshot ttask
        output).1.immMemtables = snapshot.immMemtables ∧
    (TieredCompactionController.applyCompactionResult snapshot ttask
        output).1.sstables = snapshot.sstables ∧
    (TieredCompactionController.applyCompactionResult snapshot ttask
        output).2 = ttask.tiers.flatMap (·.2) := by
  rcases stask with ⟨upperLevel, upperIds, lowerLevel, lowerIds, bottom⟩
  cases upperLevel <;>
    simp [SimpleLeveledCompactionController.applyCompactionResult,
      TieredCompactionController.applyCompactionResult]

end MiniLsm

namespace MiniLsm

/-- An errored `FusedIterator` is a fixed point of `next`. -/
theorem fusedIterator_next_of_errored {σ : Type} (isValidFn : σ → Bool)
    (nextFn : σ → σ × Bool) (f : FusedIterator σ) (h : f.hasErrored = true) :
    FusedIterator.next isValidFn nextFn f =
      { state := f, ok := false, calledUnderlying := false } := by
  simp [FusedIterator.next, h]

/-- Iterating `next` from an errored `FusedIterator` never leaves it. -/
theorem fusedIterator_iterate_of_errored {σ : Type} (isValidFn : σ → Bool)
    (nextFn : σ → σ × Bool) (f : FusedIterator σ) (h : f.hasErrored = true) :
    ∀ n, FusedIterator.iterate isValidFn nextFn f n = f := by
  intro n
  induction n generalizing f with
  | zero => rfl
  | succ n ih =>
    simp only [FusedIterator.iterate, fusedIterator_next_of_errored isValidFn nextFn f h]
    exact ih f h

end MiniLsm

namespace MiniLsm

/-- C8.  `FusedIterator::next` on a not-errored, invalid wrapper returns
`Ok` without invoking the underlying `next` and leaves the state unchanged;
once errored, `is_valid` is false and `next` keeps returning an error after
any number of further calls; an underlying `next` error marks the wrapper
errored. -/
theorem fusedIterator_spec {σ : Type} (isValidFn : σ → Bool)
    (nextFn : σ → σ × Bool) (f : FusedIterator σ) :
    (f.hasErrored = false → isValidFn f.iter = false →
      FusedIterator.next isValidFn nextFn f =
        { state := f, ok := true, calledUnderlying := false }) ∧
    (f.hasErrored = true →
      FusedIterator.isValid isValidFn f = false ∧
      ∀ n : Nat,
        (FusedIterator.next isValidFn nextFn
          (FusedIterator.iterate isValidFn nextFn f n)).ok = false) ∧
    (f.hasErrored = false → isValidFn f.iter = true → (nextFn f.iter).2 = true →
      (FusedIterator.next isValidFn nextFn f).state.hasErrored = true ∧
      (FusedIterator.next isValidFn nextFn f).ok = false) := by
  refine ⟨?_, ?_, ?_⟩
  · intro herr hval
    simp [FusedIterator.next, FusedIterator.isValid, herr, hval]
  · intro herr
    refine ⟨by simp [FusedIterator.isValid, herr], fun n => ?_⟩
    rw [fusedIterator_iterate_of_errored isValidFn nextFn f herr n,
      fusedIterator_next_of_errored isValidFn nextFn f herr]
  · intro herr hval hfail
    simp [FusedIterator.next, FusedIterator.isValid, herr, hval, hfail]

/-- Closed instance of `fusedIterator_spec`: a wrapper over an invalid
iterator (state `0`, never valid) whose `next` would error. -/
theorem fusedIterator_spec_witness :
    FusedIterator.next (fun _ : Nat => false) (fun s => (s, true))
        { iter := 0, hasErrored := false } =
      { state := { iter := 0, hasErrored := false }, ok := true,
        calledUnderlying := false } ∧
    (FusedIterator.next (fun _ : Nat => false) (fun s => (s, true))
        (FusedIterator.iterate (fun _ : Nat => false) (fun s => (s, true))
          { iter := 0, hasErrored := true } 2)).ok = false :=
  ⟨(fusedIterator_spec (fun _ : Nat => false) (fun s => (s, true))
      { iter := 0, hasErrored := false }).1 rfl rfl,
    ((fusedIterator_spec (fun _ : Nat => false) (fun s => (s, true))
      { iter := 0, hasErrored := true }).2.1 rfl).2 2⟩

end MiniLsm

namespace MiniLsm

/-- Iterate `LsmIterator::next` `n` times. -/
def LsmIterator.iterate (it : LsmIterator) : Nat → LsmIterator
  | 0 => it
  | n + 1 => LsmIterator.iterate it.next n

/-- With enough fuel (more than the inner stream length), the skip loop
never stops on a valid tombstone. -/
theorem skipDeletedFuel_clean (fuel : Nat) :
    ∀ it : LsmIterator, it.inner.length < fuel →
      (LsmIterator.skipDeletedFuel fuel it).isValid = true →
      (LsmIterator.skipDeletedFuel fuel it).value.isEmpty = false := by
  induction fuel with
  | zero => intro it h; omega
  | succ fuel ih =>
    intro it hlen
    rw [LsmIterator.skipDeletedFuel]
    by_cases hg : it.isValid = true ∧ it.value.isEmpty = true
    · simp only [hg, and_self, if_true]
      have hne : it.inner ≠ [] := by
        intro hnil
        simp [LsmIterator.isValid, hnil] at hg
      have : it.inner.tail.length < fuel := by
        have := List.length_tail it.inner
        have hpos : 0 < it.inner.length := List.length_pos.mpr hne
        omega
      exact ih { it with inner := it.inner.tail } this
    · simp only [if_neg hg]
      intro hv
      cases hve : it.value.isEmpty
      · rfl
      · exact absurd ⟨hv, hve⟩ hg

/-- The result of the skip loop never exposes a tombstone while valid. -/
theorem skipDeleted_clean (it : LsmIterator) :
    (it.skipDeleted).isValid = true → (it.skipDeleted).value.isEmpty = false :=
  skipDeletedFuel_clean (it.inner.length + 1) it (Nat.lt_succ_self _)

end MiniLsm

namespace MiniLsm

/-- C7.  At construction and after any number of `next` calls, an
`LsmIterator` never exposes an empty value while valid, and `is_valid` is
false as soon as the inner iterator is exhausted or the current key exceeds
the upper bound (`key > k` for `Included k`, `key ≥ k` for `Excluded k`). -/
theorem lsmIterator_spec (inner : List Entry) (upper : KeyBound) (n : Nat) :
    (((LsmIterator.new inner upper).iterate n).isValid = true →
      ((LsmIterator.new inner upper).iterate n).value.isEmpty = false) ∧
    (((LsmIterator.new inner upper).iterate n).inner = [] →
      ((LsmIterator.new inner upper).iterate n).isValid = false) ∧
    (∀ k, ((LsmIterator.new inner upper).iterate n).upper = KeyBound.included k →
      keyLt k ((LsmIterator.new inner upper).iterate n).key = true →
      ((LsmIterator.new inner upper).iterate n).isValid = false) ∧
    (∀ k, ((LsmIterator.new inner upper).iterate n).upper = KeyBound.excluded k →
      keyLe k ((LsmIterator.new inner upper).iterate n).key = true →
      ((LsmIterator.new inner upper).iterate n).isValid = false) := by
  have hbound : ∀ it : LsmIterator,
      (it.inner = [] → it.isValid = false) ∧
      (∀ k, it.upper = KeyBound.included k → keyLt k it.key = true →
        it.isValid = false) ∧
      (∀ k, it.upper = KeyBound.excluded k → keyLe k it.key = true →
        it.isValid = false) := by
    intro it
    refine ⟨fun hnil => by simp [LsmIterator.isValid, hnil], ?_, ?_⟩
    · intro k hup hgt
      simp only [LsmIterator.isValid, hup]
      split
      · rfl
      · simpa [keyLe] using hgt
    · intro k hup hge
      simp only [LsmIterator.isValid, hup]
      split
      · rfl
      · simp only [keyLe, Bool.not_eq_true'] at hge
        simpa using hge
  have hnext : ∀ it : LsmIterator,
      (it.isValid = true → it.value.isEmpty = false) →
      (it.next.isValid = true → it.next.value.isEmpty = false) := by
    intro it hc
    rw [LsmIterator.next]
    split
    · exact hc
    · exact skipDeleted_clean _
  have hiter : ∀ (it : LsmIterator),
      (it.isValid = true → it.value.isEmpty = false) →
      ∀ m, ((it.iterate m).isValid = true → (it.iterate m).value.isEmpty = false) := by
    intro it hc m
    induction m generalizing it with
    | zero => exact hc
    | succ m ih => exact ih it.next (hnext it hc)
  exact ⟨hiter _ (skipDeleted_clean _) n, (hbound _).1, (hbound _).2.1, (hbound _).2.2⟩

/-- Closed instance of `lsmIterator_spec`: after construction over a stream
starting with a tombstone, the iterator is valid on the live entry with a
non-empty value. -/
theorem lsmIterator_spec_witness :
    ((LsmIterator.new [([97], []), ([98], [49])] KeyBound.unbounded).iterate
        0).isValid = true ∧
    ((LsmIterator.new [([97], []), ([98], [49])] KeyBound.unbounded).iterate
        0).value.isEmpty = false :=
  ⟨by decide,
    (lsmIterator_spec [([97], []), ([98], [49])] KeyBound.unbounded 0).1 (by decide)⟩

end MiniLsm

namespace MiniLsm

/-! ## Order helper lemmas -/

theorem keyLe_iff (a b : Bytes) : keyLe a b = true ↔ keyLt b a = false := by
  simp [keyLe]

theorem keyLe_trans {a b c : Bytes} (hab : keyLe a b = true) (hbc : keyLe b c = true) :
    keyLe a c = true := by
  rw [keyLe_iff] at hab hbc ⊢
  cases hca : keyLt c a with
  | false => rfl
  | true =>
    cases hab' : keyLt a b with
    | true => exact absurd (keyLt_trans hca hab') (by simp [hbc])
    | false =>
      have : a = b := keyLt_total a b hab' hab
      subst this
      exact absurd hca (by simp [hbc])

theorem keyLt_of_keyLe_of_keyLt {a b c : Bytes} (hab : keyLe a b = true)
    (hbc : keyLt b c = true) : keyLt a c = true := by
  rw [keyLe_iff] at hab
  cases hab' : keyLt a b with
  | true => exact keyLt_trans hab' hbc
  | false =>
    have : a = b := keyLt_total a b hab' hab
    subst this
    exact hbc

theorem keyLt_of_keyLt_of_keyLe {a b c : Bytes} (hab : keyLt a b = true)
    (hbc : keyLe b c = true) : keyLt a c = true := by
  rw [keyLe_iff] at hbc
  cases hbc' : keyLt b c with
  | true => exact keyLt_trans hab hbc'
  | false =>
    have : b = c := keyLt_total b c hbc' hbc
    subst this
    exact hab

/-! ## `takeWhile` facts (the Rust `partition_point` contract) -/

theorem takeWhile_length_le {α : Type} (p : α → Bool) (l : List α) :
    (l.takeWhile p).length ≤ l.length := by
  induction l with
  | nil => simp [List.takeWhile]
  | cons x xs ih =>
    by_cases hx : p x
    · simpa [List.takeWhile, hx] using ih
    · simp [List.takeWhile, hx]

theorem takeWhile_getD_true {α : Type} (p : α → Bool) (d : α) :
    ∀ (l : List α) (i : Nat), i < (l.takeWhile p).length → p (l.getD i d) = true := by
  intro l
  induction l with
  | nil => simp [List.takeWhile]
  | cons x xs ih =>
    intro i hi
    by_cases hx : p x
    · cases i with
      | zero => simpa [List.getD]
      | succ i =>
        simp only [List.takeWhile, hx, List.length_cons] at hi
        exact ih i (by simpa using hi)
    · simp [List.takeWhile, hx] at hi

theorem lt_takeWhile_length_of {α : Type} (p : α → Bool) (d : α) :
    ∀ (l : List α) (j : Nat), j < l.length →
      (∀ i, i ≤ j → p (l.getD i d) = true) → j < (l.takeWhile p).length := by
  intro l
  induction l with
  | nil => simp
  | cons x xs ih =>
    intro j hj hall
    have hx : p x = true := by simpa [List.getD] using hall 0 (Nat.zero_le _)
    cases j with
    | zero => simp [List.takeWhile, hx]
    | succ j =>
      have : j < (xs.takeWhile p).length := by
        refine ih j (by simpa using hj) fun i hi => ?_
        simpa [List.getD] using hall (i + 1) (by omega)
      simp only [List.takeWhile, hx, List.length_cons]
      omega

theorem getD_mem_of_lt {α : Type} (d : α) :
    ∀ (l : List α) (i : Nat), i < l.length → l.getD i d ∈ l := by
  intro l
  induction l with
  | nil => simp
  | cons x xs ih =>
    intro i hi
    cases i with
    | zero => simp [List.getD]
    | succ i =>
      simp only [List.getD] at *
      exact List.mem_cons_of_mem x (ih i (by simpa using hi))

theorem partitionPoint_le {α : Type} (p : α → Bool) (l : List α) :
    partitionPoint p l ≤ l.length :=
  takeWhile_length_le p l

theorem partitionPoint_getD_true {α : Type} (p : α → Bool) (d : α) (l : List α)
    (i : Nat) (hi : i < partitionPoint p l) : p (l.getD i d) = true :=
  takeWhile_getD_true p d l i hi

theorem lt_partitionPoint_of {α : Type} (p : α → Bool) (d : α) (l : List α)
    (j : Nat) (hj : j < l.length) (hall : ∀ i, i ≤ j → p (l.getD i d) = true) :
    j < partitionPoint p l :=
  lt_takeWhile_length_of p d l j hj hall

end MiniLsm

namespace MiniLsm

/-- A one-block table whose range is `["b", "c"]`, as `SsTable::open`
derives it from the metas. -/
def c5Table : SsTable :=
  { fileData := [], blockMetaOffset := 0, id := 0,
    blockMeta := [{ offset := 0, firstKey := [98], lastKey := [99] }],
    firstKey := [98], lastKey := [99], bloom := none }

/-- C5, counterexample.  For `k = "a" < first_key`, `find_block_idx`
returns 0, which is not past-end (`num_blocks = 1`, and indeed
`k > last_key` fails), yet block 0 does not satisfy `first_key ≤ k`:
the claimed disjunction is false. -/
theorem findBlockIdx_claim_false :
    c5Table.findBlockIdx [97] = 0 ∧
    c5Table.blockMeta.length = 1 ∧
    keyLt c5Table.lastKey [97] = false ∧
    keyLe ((c5Table.blockMeta.getD 0 BlockMeta.default0).firstKey) [97] = false := by
  decide

/-- C5, amended.  For a table with sorted, non-overlapping metas (and the
`first_key`/`last_key` fields `SsTable::open` derives): `find_block_idx`
reports past-end exactly when `k > last_key`; it returns 0 whenever
`k < first_key` (even though block 0 then does not contain `k`); and
whenever `k` lies within some block's `[first_key, last_key]` range, it
returns exactly that block's index, whose range contains `k`. -/
theorem findBlockIdx_spec (t : SsTable) (k : Bytes)
    (hne : t.blockMeta ≠ [])
    (hfirst : t.firstKey = (t.blockMeta.getD 0 BlockMeta.default0).firstKey)
    (hlast : t.lastKey =
      (t.blockMeta.getD (t.blockMeta.length - 1) BlockMeta.default0).lastKey)
    (hwf : ∀ m ∈ t.blockMeta, keyLe m.firstKey m.lastKey = true)
    (hmono : ∀ i j, i < j → j < t.blockMeta.length →
      keyLt (t.blockMeta.getD i BlockMeta.default0).lastKey
        (t.blockMeta.getD j BlockMeta.default0).firstKey = true) :
    (t.findBlockIdx k = t.blockMeta.length ↔ keyLt t.lastKey k = true) ∧
    (keyLt k t.firstKey = true → t.findBlockIdx k = 0) ∧
    (∀ j, j < t.blockMeta.length →
      keyLe (t.blockMeta.getD j BlockMeta.default0).firstKey k = true →
      keyLe k (t.blockMeta.getD j BlockMeta.default0).lastKey = true →
      t.findBlockIdx k = j ∧
      keyLe ((t.blockMeta.getD (t.findBlockIdx k) BlockMeta.default0).firstKey) k = true ∧
      keyLe k ((t.blockMeta.getD (t.findBlockIdx k) BlockMeta.default0).lastKey) = true) := by
  set metas := t.blockMeta with hmetas
  set d := BlockMeta.default0
  set n := metas.length with hn
  have hnpos : 0 < n := by
    cases hm : metas with
    | nil => exact absurd hm hne
    | cons m ms => simp [hn, hm]
  have hfle : keyLe t.firstKey t.lastKey = true := by
    rcases Nat.lt_or_ge 1 n with h1 | h1
    · have h0 : keyLe (metas.getD 0 d).firstKey (metas.getD 0 d).lastKey :=
        hwf _ (getD_mem_of_lt d metas 0 hnpos)
      have hm01 : keyLt (metas.getD 0 d).lastKey (metas.getD (n - 1) d).firstKey :=
        hmono 0 (n - 1) (by omega) (by omega)
      have hl : keyLe (metas.getD (n - 1) d).firstKey (metas.getD (n - 1) d).lastKey :=
        hwf _ (getD_mem_of_lt d metas (n - 1) (by omega))
      rw [hfirst, hlast, keyLe_iff]
      have : keyLt (metas.getD 0 d).firstKey (metas.getD (n - 1) d).lastKey = true :=
        keyLt_of_keyLt_of_keyLe (keyLt_of_keyLe_of_keyLt h0 hm01) hl
      exact keyLt_asymm this
    · have : n = 1 := by omega
      rw [hfirst, hlast, this]
      exact hwf _ (getD_mem_of_lt d metas 0 hnpos)
  refine ⟨?_, ?_, ?_⟩
  · constructor
    · intro hpast
      by_cases h1 : keyLt k t.firstKey = true
      · rw [SsTable.findBlockIdx, if_pos h1] at hpast
        omega
      · by_cases h2 : keyLt t.lastKey k = true
        · exact h2
        · exfalso
          rw [SsTable.findBlockIdx, if_neg (by simpa using h1),
            if_neg (by simpa using h2)] at hpast
          have hpp1 : 0 < partitionPoint (fun m => keyLe m.firstKey k) metas := by
            refine lt_partitionPoint_of _ d metas 0 hnpos fun i hi => ?_
            have : i = 0 := by omega
            subst this
            rw [← hfirst]
            simpa [keyLe] using h1
          have hpp2 : partitionPoint (fun m => keyLe m.firstKey k) metas ≤ n :=
            partitionPoint_le _ metas
          rw [← hmetas] at hpast
          omega
    · intro hlt
      have h1 : keyLt k t.firstKey = false := by
        cases hc : keyLt k t.firstKey with
        | false => rfl
        | true =>
          have : keyLt k k = true :=
            keyLt_trans (keyLt_of_keyLt_of_keyLe hc hfle) hlt
          simp [keyLt_irrefl] at this
      rw [SsTable.findBlockIdx, if_neg (by simp [h1]), if_pos hlt]
  · intro h1
    rw [SsTable.findBlockIdx, if_pos h1]
  · intro j hj hj1 hj2
    have h1 : keyLt k t.firstKey = false := by
      rcases Nat.eq_zero_or_pos j with rfl | hjpos
      · rw [hfirst, ← keyLe_iff]
        exact hj1
      · have h00 : keyLe (metas.getD 0 d).firstKey (metas.getD 0 d).lastKey :=
          hwf _ (getD_mem_of_lt d metas 0 hnpos)
        have h0j : keyLt (metas.getD 0 d).lastKey (metas.getD j d).firstKey :=
          hmono 0 j hjpos hj
        have : keyLt (metas.getD 0 d).firstKey k = true :=
          keyLt_of_keyLt_of_keyLe (keyLt_of_keyLe_of_keyLt h00 h0j) hj1
        rw [hfirst]
        exact keyLt_asymm this
    have h2 : keyLt t.lastKey k = false := by
      rcases Nat.lt_or_ge j (n - 1) with hjlast | hjlast
      · have hjn : keyLt (metas.getD j d).lastKey (metas.getD (n - 1) d).firstKey :=
          hmono j (n - 1) hjlast (by omega)
        have hl : keyLe (metas.getD (n - 1) d).firstKey (metas.getD (n - 1) d).lastKey :=
          hwf _ (getD_mem_of_lt d metas (n - 1) (by omega))
        have : keyLt k (metas.getD (n - 1) d).lastKey = true :=
          keyLt_of_keyLt_of_keyLe (keyLt_of_keyLe_of_keyLt hj2 hjn) hl
        rw [hlast]
        exact keyLt_asymm this
      · have : j = n - 1 := by omega
        subst this
        rw [hlast, ← keyLe_iff]
        exact hj2
    have hpp : partitionPoint (fun m => keyLe m.firstKey k) metas = j + 1 := by
      have hlow : j < partitionPoint (fun m => keyLe m.firstKey k) metas := by
        refine lt_partitionPoint_of _ d metas j hj fun i hi => ?_
        rcases Nat.lt_or_ge i j with hij | hij
        · have hii : keyLe (metas.getD i d).firstKey (metas.getD i d).lastKey :=
            hwf _ (getD_mem_of_lt d metas i (by omega))
          have hijm : keyLt (metas.getD i d).lastKey (metas.getD j d).firstKey :=
            hmono i j hij hj
          rw [keyLe_iff]
          exact keyLt_asymm
            (keyLt_of_keyLt_of_keyLe (keyLt_of_keyLe_of_keyLt hii hijm) hj1)
        · have : i = j := by omega
          subst this
          exact hj1
      have hhigh : partitionPoint (fun m => keyLe m.firstKey k) metas ≤ j + 1 := by
        by_contra hcon
        push_neg at hcon
        have hjn : j + 1 < n := by
          have := partitionPoint_le (fun m => keyLe m.firstKey k) metas
          omega
        have hp : keyLe (metas.getD (j + 1) d).firstKey k = true :=
          partitionPoint_getD_true (fun m => keyLe m.firstKey k) d metas (j + 1)
            (by omega)
        have hgap : keyLt (metas.getD j d).lastKey (metas.getD (j + 1) d).firstKey :=
          hmono j (j + 1) (Nat.lt_succ_self j) hjn
        have : keyLt k k = true :=
          keyLt_of_keyLt_of_keyLe (keyLt_of_keyLt_of_keyLe (keyLt_of_keyLe_of_keyLt hj2 hgap) hp)
            (keyLe_refl k)
        simp [keyLt_irrefl] at this
      omega
    have hres : t.findBlockIdx k = j := by
      rw [SsTable.findBlockIdx, if_neg (by simp [h1]), if_neg (by simp [h2]),
        ← hmetas, hpp]
      omega
    exact ⟨hres, by rw [hres]; exact hj1, by rw [hres]; exact hj2⟩

/-- Closed instance of `findBlockIdx_spec` at a two-block table and a key
inside block 1's range. -/
theorem findBlockIdx_spec_witness :
    (SsTable.mk [] [⟨0, [98], [99]⟩, ⟨0, [101], [102]⟩] 0 0 [98] [102]
        none).findBlockIdx [101] = 1 :=
  ((findBlockIdx_spec
      (SsTable.mk [] [⟨0, [98], [99]⟩, ⟨0, [101], [102]⟩] 0 0 [98] [102] none)
      [101] (by decide) (by decide) (by decide)
      (by decide)
      (by
        intro i j hij hjn
        simp only [List.length_cons, List.length_nil] at hjn
        have hj1 : j = 1 := by omega
        subst hj1
        have hi0 : i = 0 := by omega
        subst hi0
        decide)).2.2 1 (by decide) (by decide) (by decide)).1

end MiniLsm

namespace MiniLsm

/-! ## The functional two-way merge the `TwoMergeIterator` implements -/

/-- Strict order on entries by key. -/
def entLt (e1 e2 : Entry) : Prop := keyLt e1.1 e2.1 = true

instance : DecidablePred (Function.uncurry entLt) := fun _ => by
  unfold Function.uncurry entLt
  infer_instance

instance (e1 e2 : Entry) : Decidable (entLt e1 e2) := by
  unfold entLt
  infer_instance

/-- The duplicate-dropping merge that prefers `a` on equal keys: the
reference semantics of `TwoMergeIterator` (spec 4.3). -/
def mergeAB : List Entry → List Entry → List Entry
  | [], b => b
  | a, [] => a
  | ea :: as, eb :: bs =>
    if keyLt ea.1 eb.1 then ea :: mergeAB as (eb :: bs)
    else if ea.1 = eb.1 then ea :: mergeAB as bs
    else eb :: mergeAB (ea :: as) bs
termination_by a b => a.length + b.length

theorem mergeAB_nil_left (b : List Entry) : mergeAB [] b = b := by
  cases b <;> simp [mergeAB]

theorem mergeAB_nil_right (a : List Entry) : mergeAB a [] = a := by
  cases a <;> simp [mergeAB]

theorem mergeAB_cons_cons (ea : Entry) (as : List Entry) (eb : Entry) (bs : List Entry) :
    mergeAB (ea :: as) (eb :: bs) =
      if keyLt ea.1 eb.1 then ea :: mergeAB as (eb :: bs)
      else if ea.1 = eb.1 then ea :: mergeAB as bs
      else eb :: mergeAB (ea :: as) bs := by
  rw [mergeAB]

/-- Merging with a stream whose head key equals `a`'s head key drops that
head: the shadowed `b` entry contributes nothing. -/
theorem mergeAB_skip_dup (ea : Entry) (as : List Entry) (eb : Entry) (bs : List Entry)
    (heq : ea.1 = eb.1) (hb : (eb :: bs).Pairwise entLt) :
    mergeAB (ea :: as) (eb :: bs) = mergeAB (ea :: as) bs := by
  rw [mergeAB_cons_cons, if_neg (by simp [heq, keyLt_irrefl]), if_pos heq]
  cases bs with
  | nil => rw [mergeAB_nil_right, mergeAB_nil_right]
  | cons eb' bs' =>
    have hlt : keyLt ea.1 eb'.1 = true := by
      rw [heq]
      exact (List.pairwise_cons.mp hb).1 eb' (List.mem_cons_self eb' bs')
    rw [mergeAB_cons_cons, if_pos hlt]

/-- Every element of the merge comes from one of the inputs. -/
theorem mem_mergeAB :
    ∀ (n : Nat) (a b : List Entry), a.length + b.length ≤ n →
      ∀ e ∈ mergeAB a b, e ∈ a ∨ e ∈ b := by
  intro n
  induction n with
  | zero =>
    intro a b hlen
    have ha : a = [] := by cases a <;> simp_all
    have hb : b = [] := by cases b <;> simp_all
    subst ha; subst hb
    simp [mergeAB_nil_left]
  | succ n ih =>
    intro a b hlen e he
    match a, b with
    | [], b => simp_all [mergeAB_nil_left]
    | ea :: as, [] => simp_all [mergeAB_nil_right]
    | ea :: as, eb :: bs =>
      rw [mergeAB_cons_cons] at he
      by_cases h1 : keyLt ea.1 eb.1 = true
      · rw [if_pos h1] at he
        rcases List.mem_cons.mp he with rfl | he'
        · exact Or.inl (List.mem_cons_self _ _)
        · rcases ih as (eb :: bs) (by simp_all; omega) e he' with h | h
          · exact Or.inl (List.mem_cons_of_mem _ h)
          · exact Or.inr h
      · rw [if_neg (by simpa using h1)] at he
        by_cases h2 : ea.1 = eb.1
        · rw [if_pos h2] at he
          rcases List.mem_cons.mp he with rfl | he'
          · exact Or.inl (List.mem_cons_self _ _)
          · rcases ih as bs (by simp_all; omega) e he' with h | h
            · exact Or.inl (List.mem_cons_of_mem _ h)
            · exact Or.inr (List.mem_cons_of_mem _ h)
        · rw [if_neg h2] at he
          rcases List.mem_cons.mp he with rfl | he'
          · exact Or.inr (List.mem_cons_self _ _)
          · rcases ih (ea :: as) bs (by simp_all; omega) e he' with h | h
            · exact Or.inl h
            · exact Or.inr (List.mem_cons_of_mem _ h)

/-- Every entry of `a` survives the merge (so on a key collision the output
carries `a`'s value). -/
theorem left_mem_mergeAB :
    ∀ (n : Nat) (a b : List Entry), a.length + b.length ≤ n →
      ∀ e ∈ a, e ∈ mergeAB a b := by
  intro n
  induction n with
  | zero =>
    intro a b hlen
    have ha : a = [] := by cases a <;> simp_all
    subst ha
    simp
  | succ n ih =>
    intro a b hlen e he
    match a, b with
    | ea :: as, [] => simpa [mergeAB_nil_right] using he
    | ea :: as, eb :: bs =>
      rw [mergeAB_cons_cons]
      by_cases h1 : keyLt ea.1 eb.1 = true
      · rw [if_pos h1]
        rcases List.mem_cons.mp he with rfl | he'
        · exact List.mem_cons_self _ _
        · exact List.mem_cons_of_mem _ (ih as (eb :: bs) (by simp_all; omega) e he')
      · rw [if_neg (by simpa using h1)]
        by_cases h2 : ea.1 = eb.1
        · rw [if_pos h2]
          rcases List.mem_cons.mp he with rfl | he'
          · exact List.mem_cons_self _ _
          · exact List.mem_cons_of_mem _ (ih as bs (by simp_all; omega) e he')
        · rw [if_neg h2]
          exact List.mem_cons_of_mem _ (ih (ea :: as) bs (by simp_all; omega) e he)

/-- The merge of two strictly sorted streams is strictly sorted (hence
emits each key at most once). -/
theorem pairwise_mergeAB :
    ∀ (n : Nat) (a b : List Entry), a.length + b.length ≤ n →
      a.Pairwise entLt → b.Pairwise entLt → (mergeAB a b).Pairwise entLt := by
  intro n
  induction n with
  | zero =>
    intro a b hlen ha hb
    have ha' : a = [] := by cases a <;> simp_all
    have hb' : b = [] := by cases b <;> simp_all
    subst ha'; subst hb'
    simp [mergeAB_nil_left]
  | succ n ih =>
    intro a b hlen ha hb
    match a, b with
    | [], b => simpa [mergeAB_nil_left] using hb
    | ea :: as, [] => simpa [mergeAB_nil_right] using ha
    | ea :: as, eb :: bs =>
      obtain ⟨hea, has⟩ := List.pairwise_cons.mp ha
      obtain ⟨heb, hbs⟩ := List.pairwise_cons.mp hb
      rw [mergeAB_cons_cons]
      by_cases h1 : keyLt ea.1 eb.1 = true
      · rw [if_pos h1]
        refine List.pairwise_cons.mpr ⟨?_, ih as (eb :: bs) (by simp_all; omega) has hb⟩
        intro e he
        rcases mem_mergeAB (as.length + (eb :: bs).length) as (eb :: bs) le_rfl e he with
          h | h
        · exact hea e h
        · rcases List.mem_cons.mp h with rfl | h'
          · exact h1
          · exact keyLt_trans h1 (heb e h')
      · rw [if_neg (by simpa using h1)]
        by_cases h2 : ea.1 = eb.1
        · rw [if_pos h2]
          refine List.pairwise_cons.mpr ⟨?_, ih as bs (by simp_all; omega) has hbs⟩
          intro e he
          rcases mem_mergeAB (as.length + bs.length) as bs le_rfl e he with h | h
          · exact hea e h
          · rw [entLt, h2]
            exact heb e h
        · rw [if_neg h2]
          have h3 : keyLt eb.1 ea.1 = true := by
            cases h3' : keyLt eb.1 ea.1 with
            | true => rfl
            | false =>
              exact absurd (keyLt_total ea.1 eb.1 (by simpa using h1) h3').symm
                (fun h => h2 h.symm)
          refine List.pairwise_cons.mpr
            ⟨?_, ih (ea :: as) bs (by simp_all; omega) ha hbs⟩
          intro e he
          rcases mem_mergeAB ((ea :: as).length + bs.length) (ea :: as) bs le_rfl e he
            with h | h
          · rcases List.mem_cons.mp h with rfl | h'
            · exact h3
            · exact keyLt_trans h3 (hea e h')
          · exact heb e h

end MiniLsm

namespace MiniLsm

theorem toList_of_invalid (s : TwoMergeIterator) (h : s.isValid = false) :
    s.toList = [] := by
  rw [TwoMergeIterator.toList]
  simp [h]

theorem toList_of_valid (s : TwoMergeIterator) (h : s.isValid = true) :
    s.toList = (s.key, s.value) :: s.next.toList := by
  rw [TwoMergeIterator.toList]
  simp [h]

/-- Core invariant-based correctness of the `TwoMergeIterator` transition
system: from any state whose flag points at the strictly smaller head (and
never at an exhausted side while the other is live), the emitted stream is
the A-preferring duplicate-dropping merge of the two remaining streams. -/
theorem toList_eq_mergeAB :
    ∀ (n : Nat) (s : TwoMergeIterator),
      s.a.length + s.b.length ≤ n →
      s.a.Pairwise entLt → s.b.Pairwise entLt →
      (s.a ≠ [] → s.b ≠ [] →
        (if s.flag = true then keyLt (headKey s.a) (headKey s.b)
          else keyLt (headKey s.b) (headKey s.a)) = true) →
      (s.flag = true → s.a = [] → s.b = []) →
      (s.flag = false → s.b = [] → s.a = []) →
      s.toList = mergeAB s.a s.b := by
  intro n
  induction n with
  | zero =>
    rintro ⟨a, b, flag⟩ hlen - - - - -
    have ha : a = [] := by cases a <;> simp_all
    have hb : b = [] := by cases b <;> simp_all
    subst ha; subst hb
    rw [toList_of_invalid _ (by simp [TwoMergeIterator.isValid]), mergeAB_nil_left]
  | succ n ih =>
    rintro ⟨a, b, flag⟩ hlen ha hb h3 h4 h5
    simp only at h3 h4 h5 ⊢
    match a, b with
    | [], [] =>
      rw [toList_of_invalid _ (by simp [TwoMergeIterator.isValid]), mergeAB_nil_left]
    | [], eb :: bs =>
      cases flag with
      | true => exact absurd (h4 rfl rfl) (by simp)
      | false =>
        rw [toList_of_valid _ (by simp [TwoMergeIterator.isValid])]
        have hnext : (TwoMergeIterator.mk [] (eb :: bs) false).next =
            ⟨[], bs, false⟩ := by
          simp [TwoMergeIterator.next]
        rw [hnext, ih ⟨[], bs, false⟩ (by dsimp only at hlen ⊢; simp only [List.length_cons, List.length_nil] at hlen ⊢; omega) (by simp)
          (List.pairwise_cons.mp hb).2 (by simp) (by simp) (fun _ _ => rfl)]
        simp [TwoMergeIterator.key, TwoMergeIterator.value, headKey, headValue,
          mergeAB_nil_left]
    | ea :: as, [] =>
      cases flag with
      | false => exact absurd (h5 rfl rfl) (by simp)
      | true =>
        rw [toList_of_valid _ (by simp [TwoMergeIterator.isValid])]
        cases as with
        | nil =>
          have hnext : (TwoMergeIterator.mk [ea] [] true).next = ⟨[], [], false⟩ := by
            simp [TwoMergeIterator.next]
          rw [hnext, toList_of_invalid _ (by simp [TwoMergeIterator.isValid])]
          simp [TwoMergeIterator.key, TwoMergeIterator.value, headKey, headValue,
            mergeAB_nil_right]
        | cons ea' as' =>
          have hnext : (TwoMergeIterator.mk (ea :: ea' :: as') [] true).next =
              ⟨ea' :: as', [], true⟩ := by
            simp [TwoMergeIterator.next]
          rw [hnext, ih ⟨ea' :: as', [], true⟩ (by dsimp only at hlen ⊢; simp only [List.length_cons, List.length_nil] at hlen ⊢; omega)
            (List.pairwise_cons.mp ha).2 (by simp) (by simp)
            (fun _ h => absurd h (by simp)) (by simp)]
          simp [TwoMergeIterator.key, TwoMergeIterator.value, headKey, headValue,
            mergeAB_nil_right]
    | ea :: as, eb :: bs =>
      obtain ⟨hea, has⟩ := List.pairwise_cons.mp ha
      obtain ⟨heb, hbs⟩ := List.pairwise_cons.mp hb
      cases flag with
      | true =>
        have hab : keyLt ea.1 eb.1 = true := by
          simpa [headKey] using h3 (by simp) (by simp)
        rw [toList_of_valid _ (by simp [TwoMergeIterator.isValid])]
        have hkey : (TwoMergeIterator.mk (ea :: as) (eb :: bs) true).key = ea.1 := by
          simp [TwoMergeIterator.key, headKey]
        have hval : (TwoMergeIterator.mk (ea :: as) (eb :: bs) true).value = ea.2 := by
          simp [TwoMergeIterator.value, headValue]
        rw [hkey, hval, mergeAB_cons_cons, if_pos hab]
        cases as with
        | nil =>
          have hnext : (TwoMergeIterator.mk [ea] (eb :: bs) true).next =
              ⟨[], eb :: bs, false⟩ := by
            simp [TwoMergeIterator.next]
          rw [hnext, ih ⟨[], eb :: bs, false⟩ (by dsimp only at hlen ⊢; simp only [List.length_cons, List.length_nil] at hlen ⊢; omega) (by simp) hb
            (by simp) (by simp) (fun _ h => absurd h (by simp))]
        | cons ea' as' =>
          obtain ⟨hea', has'⟩ := List.pairwise_cons.mp has
          by_cases hlt2 : keyLt ea'.1 eb.1 = true
          · have hnext : (TwoMergeIterator.mk (ea :: ea' :: as') (eb :: bs) true).next =
                ⟨ea' :: as', eb :: bs, true⟩ := by
              simp [TwoMergeIterator.next, headKey, hlt2]
            rw [hnext, ih ⟨ea' :: as', eb :: bs, true⟩ (by dsimp only at hlen ⊢; simp only [List.length_cons, List.length_nil] at hlen ⊢; omega) has hb
              (fun _ _ => by simpa [headKey] using hlt2)
              (fun _ h => absurd h (by simp)) (by simp)]
          · by_cases heq2 : ea'.1 = eb.1
            · have hnext : (TwoMergeIterator.mk (ea :: ea' :: as') (eb :: bs) true).next =
                  ⟨ea' :: as', bs, true⟩ := by
                simp [TwoMergeIterator.next, headKey, hlt2, heq2, keyLt_irrefl]
              have hinv3 : (ea' :: as' : List Entry) ≠ [] → bs ≠ [] →
                  (if true = true then keyLt (headKey (ea' :: as')) (headKey bs)
                    else keyLt (headKey bs) (headKey (ea' :: as'))) = true := by
                intro _ hbs'
                cases bs with
                | nil => exact absurd rfl hbs'
                | cons y ys =>
                  have : keyLt eb.1 y.1 = true := heb y (List.mem_cons_self y ys)
                  simp only [if_pos rfl, headKey, List.headD_cons]
                  rw [heq2]
                  exact this
              rw [hnext, ih ⟨ea' :: as', bs, true⟩ (by dsimp only at hlen ⊢; simp only [List.length_cons, List.length_nil] at hlen ⊢; omega) has hbs
                hinv3 (fun _ h => absurd h (by simp)) (by simp)]
              rw [mergeAB_skip_dup ea' as' eb bs heq2 hb]
            · have hgt2 : keyLt eb.1 ea'.1 = true := by
                cases hc : keyLt eb.1 ea'.1 with
                | true => rfl
                | false =>
                  exact absurd (keyLt_total ea'.1 eb.1 (by simpa using hlt2) hc) heq2
              have hnext : (TwoMergeIterator.mk (ea :: ea' :: as') (eb :: bs) true).next =
                  ⟨ea' :: as', eb :: bs, false⟩ := by
                simp [TwoMergeIterator.next, headKey, hlt2, heq2, keyLt_irrefl]
              rw [hnext, ih ⟨ea' :: as', eb :: bs, false⟩ (by dsimp only at hlen ⊢; simp only [List.length_cons, List.length_nil] at hlen ⊢; omega) has hb
                (fun _ _ => by simpa [headKey] using hgt2) (by simp)
                (fun _ h => absurd h (by simp))]
      | false =>
        have hba : keyLt eb.1 ea.1 = true := by
          simpa [headKey] using h3 (by simp) (by simp)
        have habf : keyLt ea.1 eb.1 = false := keyLt_asymm hba
        have hne : ¬(ea.1 = eb.1) := by
          intro h
          rw [h] at hba
          simp [keyLt_irrefl] at hba
        rw [toList_of_valid _ (by simp [TwoMergeIterator.isValid])]
        have hkey : (TwoMergeIterator.mk (ea :: as) (eb :: bs) false).key = eb.1 := by
          simp [TwoMergeIterator.key, headKey]
        have hval : (TwoMergeIterator.mk (ea :: as) (eb :: bs) false).value = eb.2 := by
          simp [TwoMergeIterator.value, headValue]
        rw [hkey, hval, mergeAB_cons_cons, if_neg (by simp [habf]), if_neg hne]
        cases bs with
        | nil =>
          have hnext : (TwoMergeIterator.mk (ea :: as) [eb] false).next =
              ⟨ea :: as, [], true⟩ := by
            simp [TwoMergeIterator.next]
          rw [hnext, ih ⟨ea :: as, [], true⟩ (by dsimp only at hlen ⊢; simp only [List.length_cons, List.length_nil] at hlen ⊢; omega) ha (by simp)
            (fun _ h => absurd h (by simp)) (fun h hh => absurd hh (by simp)) (by simp)]
        | cons eb' bs' =>
          obtain ⟨heb', hbs'⟩ := List.pairwise_cons.mp hbs
          by_cases hlt2 : keyLt ea.1 eb'.1 = true
          · have hnext : (TwoMergeIterator.mk (ea :: as) (eb :: eb' :: bs') false).next =
                ⟨ea :: as, eb' :: bs', true⟩ := by
              simp [TwoMergeIterator.next, headKey, hlt2]
            rw [hnext, ih ⟨ea :: as, eb' :: bs', true⟩ (by dsimp only at hlen ⊢; simp only [List.length_cons, List.length_nil] at hlen ⊢; omega) ha hbs
              (fun _ _ => by simpa [headKey] using hlt2)
              (fun _ h => absurd h (by simp)) (by simp)]
          · by_cases heq2 : ea.1 = eb'.1
            · have hnext : (TwoMergeIterator.mk (ea :: as) (eb :: eb' :: bs') false).next =
                  ⟨ea :: as, bs', true⟩ := by
                simp [TwoMergeIterator.next, headKey, hlt2, heq2, keyLt_irrefl]
              have hinv3 : (ea :: as : List Entry) ≠ [] → bs' ≠ [] →
                  (if true = true then keyLt (headKey (ea :: as)) (headKey bs')
                    else keyLt (headKey bs') (headKey (ea :: as))) = true := by
                intro _ hbs''
                cases bs' with
                | nil => exact absurd rfl hbs''
                | cons y ys =>
                  have : keyLt eb'.1 y.1 = true := heb' y (List.mem_cons_self y ys)
                  simp only [if_pos rfl, headKey, List.headD_cons]
                  rw [heq2]
                  exact this
              rw [hnext, ih ⟨ea :: as, bs', true⟩ (by dsimp only at hlen ⊢; simp only [List.length_cons, List.length_nil] at hlen ⊢; omega) ha hbs'
                hinv3 (fun _ h => absurd h (by simp)) (by simp)]
              rw [mergeAB_skip_dup ea as eb' bs' heq2 hbs]
            · have hgt2 : keyLt eb'.1 ea.1 = true := by
                cases hc : keyLt eb'.1 ea.1 with
                | true => rfl
                | false =>
                  exact absurd (keyLt_total ea.1 eb'.1 (by simpa using hlt2) hc) heq2
              have hnext : (TwoMergeIterator.mk (ea :: as) (eb :: eb' :: bs') false).next =
                  ⟨ea :: as, eb' :: bs', false⟩ := by
                simp [TwoMergeIterator.next, headKey, hlt2, heq2, keyLt_irrefl]
              rw [hnext, ih ⟨ea :: as, eb' :: bs', false⟩ (by dsimp only at hlen ⊢; simp only [List.length_cons, List.length_nil] at hlen ⊢; omega) ha hbs
                (fun _ _ => by simpa [headKey] using hgt2) (by simp)
                (fun _ h => absurd h (by simp))]

end MiniLsm

namespace MiniLsm

/-- C6.  For individually strictly-sorted inputs, `TwoMergeIterator` emits
exactly the A-preferring duplicate-dropping merge: the stream is strictly
sorted (each key at most once), every entry of `A` survives, and on equal
keys the emitted pair is `A`'s while `B`'s shadowed entry is skipped —
`create` and `next` advance `B` past it. -/
theorem twoMergeIterator_spec (a b : List Entry)
    (ha : a.Pairwise entLt) (hb : b.Pairwise entLt) :
    (TwoMergeIterator.create a b).toList = mergeAB a b ∧
    (mergeAB a b).Pairwise entLt ∧
    (∀ e ∈ a, e ∈ mergeAB a b) := by
  refine ⟨?_, pairwise_mergeAB (a.length + b.length) a b le_rfl ha hb,
    left_mem_mergeAB (a.length + b.length) a b le_rfl⟩
  cases a with
  | nil =>
    have hc : TwoMergeIterator.create [] b = ⟨[], b, false⟩ := by
      simp [TwoMergeIterator.create]
    rw [hc, toList_eq_mergeAB (0 + b.length) ⟨[], b, false⟩ le_rfl (by simp) hb
      (fun h _ => absurd rfl h) (by simp) (fun _ _ => rfl)]
  | cons ea as =>
    cases b with
    | nil =>
      have hc : TwoMergeIterator.create (ea :: as) [] = ⟨ea :: as, [], true⟩ := by
        simp [TwoMergeIterator.create]
      rw [hc, toList_eq_mergeAB ((ea :: as).length + 0) ⟨ea :: as, [], true⟩ le_rfl
        ha (by simp) (fun _ h => absurd rfl h) (fun _ h => absurd h (by simp))
        (by simp)]
    | cons eb bs =>
      obtain ⟨heb, hbs⟩ := List.pairwise_cons.mp hb
      by_cases heq : ea.1 = eb.1
      · have hc : TwoMergeIterator.create (ea :: as) (eb :: bs) =
            ⟨ea :: as, bs, true⟩ := by
          simp [TwoMergeIterator.create, headKey, heq]
        have hinv3 : (ea :: as : List Entry) ≠ [] → bs ≠ [] →
            (if true = true then keyLt (headKey (ea :: as)) (headKey bs)
              else keyLt (headKey bs) (headKey (ea :: as))) = true := by
          intro _ hbs'
          cases bs with
          | nil => exact absurd rfl hbs'
          | cons y ys =>
            have : keyLt eb.1 y.1 = true := heb y (List.mem_cons_self y ys)
            simp only [if_pos rfl, headKey, List.headD_cons]
            rw [heq]
            exact this
        rw [hc, toList_eq_mergeAB ((ea :: as).length + bs.length) ⟨ea :: as, bs, true⟩
          le_rfl ha hbs hinv3 (fun _ h => absurd h (by simp)) (by simp),
          ← mergeAB_skip_dup ea as eb bs heq hb]
      · by_cases hgt : keyLt eb.1 ea.1 = true
        · have hc : TwoMergeIterator.create (ea :: as) (eb :: bs) =
              ⟨ea :: as, eb :: bs, false⟩ := by
            simp [TwoMergeIterator.create, headKey, heq, hgt]
          rw [hc, toList_eq_mergeAB ((ea :: as).length + (eb :: bs).length)
            ⟨ea :: as, eb :: bs, false⟩ le_rfl ha hb
            (fun _ _ => by simpa [headKey] using hgt) (by simp)
            (fun _ h => absurd h (by simp))]
        · have hlt : keyLt ea.1 eb.1 = true := by
            cases hc' : keyLt ea.1 eb.1 with
            | true => rfl
            | false =>
              exact absurd (keyLt_total ea.1 eb.1 hc' (by simpa using hgt)) heq
          have hc : TwoMergeIterator.create (ea :: as) (eb :: bs) =
              ⟨ea :: as, eb :: bs, true⟩ := by
            simp [TwoMergeIterator.create, headKey, heq, hgt]
          rw [hc, toList_eq_mergeAB ((ea :: as).length + (eb :: bs).length)
            ⟨ea :: as, eb :: bs, true⟩ le_rfl ha hb
            (fun _ _ => by simpa [headKey] using hlt) (fun _ h => absurd h (by simp))
            (by simp)]

/-- Closed instance of `twoMergeIterator_spec` at concrete overlapping
inputs (key `[1]` appears in both; `A`'s value wins). -/
theorem twoMergeIterator_spec_witness :
    (TwoMergeIterator.create [([1], [10]), ([3], [30])]
        [([1], [99]), ([2], [20])]).toList =
      mergeAB [([1], [10]), ([3], [30])] [([1], [99]), ([2], [20])] :=
  (twoMergeIterator_spec [([1], [10]), ([3], [30])] [([1], [99]), ([2], [20])]
    (by decide) (by decide)).1

end MiniLsm
